import Mathlib

/-!
Verification of the lineup assignment and recommendation engine of the
fantasyzer repository (`fantasy_draft_tool.py`), as a shallow embedding in
Lean 4.  Python dictionaries become structures, Python lists become `List`,
`list.sort(key=...)` (a stable sort) becomes `List.insertionSort` on the same
key (stable sorts by a total preorder agree elementwise), `list.remove`
becomes `List.erase`, integer ranks become `Nat` (they are 1-based indices)
and rank differences become `Int`.  The fuzzywuzzy scorers
(`fuzz.token_sort_ratio`, `fuzz.ratio`) are an external library, not part of
the repository; they are taken as function parameters, so every theorem
about code that calls them holds for the actual scorers as a special case.
-/

/-! ## NameNormalizer: `FantasyDraftTool._normalize_name` (lines 45-66)

The source lowercases, strips accents via NFKD decomposition, replaces every
character outside `[a-z0-9\s]` by a space, deletes the whole-word suffixes
jr/sr/ii/iii/iv/v, collapses whitespace and trims.  The embedding models the
ASCII fragment: on ASCII strings the NFKD decomposition and the
combining-mark strip are the identity, `str.lower` is `Char.toLower`, and
collapsing `\s+` to single spaces then trimming is the same as splitting
into whitespace-free tokens and rejoining them with single spaces. -/

def keepChar (c : Char) : Char :=
  let lc := c.toLower
  if ('a' ≤ lc ∧ lc ≤ 'z') ∨ ('0' ≤ lc ∧ lc ≤ '9') then lc else ' '

def splitSpacesAux : List Char → List Char → List String
  | [], acc => if acc.isEmpty then [] else [String.mk acc.reverse]
  | c :: cs, acc =>
    if c = ' ' then
      if acc.isEmpty then splitSpacesAux cs []
      else String.mk acc.reverse :: splitSpacesAux cs []
    else splitSpacesAux cs (c :: acc)

/-- Tokens of a string, split on spaces, empty tokens dropped
(Python `s.split()`). -/
def spaceTokens (s : String) : List String :=
  splitSpacesAux s.data []

/-- The suffix words removed by the `\b(jr|sr|ii|iii|iv|v)\b` substitution. -/
def suffixWords : List String := ["jr", "sr", "ii", "iii", "iv", "v"]

/-- `FantasyDraftTool._normalize_name` on a string (ASCII fragment). -/
def normalizeName (s : String) : String :=
  let cleaned := String.mk (s.data.map keepChar)
  let toks := (spaceTokens cleaned).filter (fun t => ¬ suffixWords.contains t)
  String.intercalate " " toks

/-- `fp_normalized.split()[0] if fp_normalized.split() else ""`. -/
def firstToken (s : String) : String := (spaceTokens s).headD ""

/-- `normalized.split(" ")[-1]`: on normalizer output (single internal
spaces, no border spaces) this is the last whitespace token, and `""` on the
empty string, exactly as in Python where `"".split(" ") == [""]`. -/
def lastTokenOfNormalized (s : String) : String := (spaceTokens s).getLastD ""

/-- Python `str.lower` (ASCII). -/
def lowerStr (s : String) : String := String.mk (s.data.map Char.toLower)

def isPySpace (c : Char) : Bool :=
  c = ' ' ∨ c = '\t' ∨ c = '\n' ∨ c = '\r' ∨ c = '\x0b' ∨ c = '\x0c'

/-- Python `str.strip()`: drop leading and trailing whitespace. -/
def stripStr (s : String) : String :=
  String.mk (((s.data.dropWhile isPySpace).reverse.dropWhile isPySpace).reverse)

/-- Python `str.upper` (ASCII). -/
def upperStr (s : String) : String := String.mk (s.data.map Char.toUpper)

/-! ## A model of the Python values `_normalize_name` can receive

The function is annotated `name: str` but Python does not enforce the
annotation, so the embedding models dynamic inputs: strings, `None`,
integers, booleans and lists, with Python truthiness.  `if not name:
return ""` returns early on every falsy value; on a truthy value the body
runs `name.lower()`, which raises `AttributeError` unless the value is a
string. -/

inductive PyVal where
  | str (s : String)
  | none
  | int (n : Int)
  | bool (b : Bool)
  | list (l : List PyVal)

def PyVal.truthy : PyVal → Bool
  | .str s => s ≠ ""
  | .none => false
  | .int n => n ≠ 0
  | .bool b => b
  | .list l => ¬ l.isEmpty

inductive PyResult (α : Type) where
  | ok (a : α)
  | exn (msg : String)
deriving DecidableEq, Repr

/-- `FantasyDraftTool._normalize_name` as applied to an arbitrary Python
value: falsy values return `""`; truthy strings are normalized; any other
truthy value raises `AttributeError` at `name.lower()`. -/
def normalizeNamePy (v : PyVal) : PyResult String :=
  if ¬ v.truthy then .ok ""
  else
    match v with
    | .str s => .ok (normalizeName s)
    | _ => .exn "AttributeError"

/-! ## IdentityResolver: pieces of `match_players` (lines 302-425)

`process.extractOne(query, choices, scorer)` computes `scorer query c` for
each choice `c` and returns the first choice attaining the maximum score
(`max` in Python keeps the first maximal element), or `None` when there are
no choices. -/

def extractOneAux (score : String → Nat) : String × Nat → List String → String × Nat
  | best, [] => best
  | best, c :: cs =>
    extractOneAux score (if score c > best.2 then (c, score c) else best) cs

def extractOne (score : String → Nat) : List String → Option (String × Nat)
  | [] => none
  | c :: cs => some (extractOneAux score (c, score c) cs)

/-- First value in an association list under a string key
(a Python dict lookup). -/
def lookupStr {α : Type} (l : List (String × α)) (k : String) : Option α :=
  (l.find? (fun e => e.1 = k)).map Prod.snd

/-- The fuzzy-matching step of `match_players` (lines 353-379): candidates
are the (normalized name, sleeper id) pairs of `candidates_map`; the scorer
`tsr` stands for `fuzz.token_sort_ratio`, `fr` for `fuzz.ratio`.  The best
candidate is accepted only if its score is at least 95 and the first tokens
of the two normalized names are nonempty with similarity at least 85. -/
def fuzzyStep (tsr : String → String → Nat) (fr : String → String → Nat)
    (name : String) (cands : List (String × String)) : Option String :=
  let normalizedFp := normalizeName name
  match extractOne (fun k => tsr normalizedFp k) (cands.map Prod.fst) with
  | Option.none => Option.none
  | some (chosenKey, score) =>
    if 95 ≤ score then
      let fpNorm := lowerStr (normalizeName name)
      let slNorm := lowerStr chosenKey
      let fpFirst := firstToken fpNorm
      let slFirst := firstToken slNorm
      if 0 < fpFirst.length ∧ 0 < slFirst.length then
        if 85 ≤ fr fpFirst slFirst then lookupStr cands chosenKey
        else Option.none
      else Option.none
    else Option.none

/-- A Sleeper player-directory entry (the fields the engine reads; missing
fields are the empty string, as the source reads them with
`sp.get(..., '')` or `(sp.get(...) or "")`). -/
structure SleeperPlayer where
  full_name : String
  first_name : String
  last_name : String
  team : String
  position : String
deriving DecidableEq, Repr

/-- The last-name + team + position fallback of `match_players`
(lines 381-399): candidates are directory entries whose normalized last
name, uppercased team and uppercased position all equal the source
player's; the guard skips the heuristic entirely when the last name, team
or position is missing or the team is the free-agent marker `"FA"`; a
match is accepted only when exactly one candidate qualifies. -/
def fallbackQual (name team pos : String) (e : String × SleeperPlayer) : Bool :=
  decide (normalizeName e.2.last_name = lastTokenOfNormalized (normalizeName name) ∧
    upperStr e.2.team = upperStr team ∧ upperStr e.2.position = upperStr pos)

def fallbackCands (sleepers : List (String × SleeperPlayer))
    (name team pos : String) : List String :=
  if lastTokenOfNormalized (normalizeName name) ≠ "" ∧ upperStr team ≠ "" ∧
      upperStr team ≠ "FA" ∧ upperStr pos ≠ "" then
    (sleepers.filter (fallbackQual name team pos)).map Prod.fst
  else []

def fallbackMatch (sleepers : List (String × SleeperPlayer))
    (name team pos : String) : Option String :=
  match fallbackCands sleepers name team pos with
  | [theId] => some theId
  | _ => Option.none

/-! ## LineupAnalyzer: `analyze_weekly_rankings` (lines 819-1330)

The resolved on-roster offensive entries (the dicts built at lines 884-960)
and the resolved DEF/K entries (lines 999-1005, 1031-1036, 1066-1087,
1109-1114) are the data the allocation part of the function consumes. -/

/-- A resolved on-roster offensive entry of `user_offensive_players`. -/
structure WPlayer where
  name : String
  position : String
  position_with_rank : String
  rank : Nat
  team : String
  sleeper_id : String
  is_on_roster : Bool
deriving DecidableEq, Repr

/-- A resolved defense or kicker entry (`analysis['defenses']`,
`analysis['kickers']` carry `is_on_roster = true`; the waiver-wire entries
of `analysis['waiver_suggestions']` carry `is_on_roster = false`). -/
structure DKEntry where
  name : String
  rank : Nat
  team : String
  sleeper_id : Option String
  is_on_roster : Bool
deriving DecidableEq, Repr

/-- An element of the returned `starters` list: an offensive entry
augmented with its flex slot, or a chosen DEF/K entry with `position` set
and possibly the `is_waiver_wire` flag. -/
structure SlotEntry where
  name : String
  position : String
  position_with_rank : Option String
  rank : Nat
  team : String
  sleeper_id : Option String
  flex_slot : Option String
  is_waiver_wire : Bool
  is_on_roster : Bool
  is_free_agent : Bool
deriving DecidableEq, Repr

/-- `roster_settings`: the items of a league's slot-name → count dict. -/
abbrev Req := List (String × Nat)

/-- `roster_settings.get(k, 0)`. -/
def rget (rs : Req) (k : String) : Nat :=
  match rs.find? (fun kv => kv.1 = k) with
  | some kv => kv.2
  | none => 0

/-- The keys of the `position_requirements` dict (lines 1138-1147), in the
order of its literal. -/
def slotNames : List String :=
  ["QB", "RB", "WR", "TE", "WRRB_FLEX", "FLEX", "WRRBTE_FLEX", "SUPER_FLEX"]

def offensivePositions : List String := ["QB", "RB", "WR", "TE"]

def rwtePositions : List String := ["RB", "WR", "TE"]

def rwPositions : List String := ["RB", "WR"]

/-- Stable ascending sort by rank, as Python `list.sort(key=lambda x:
x['rank'])`. -/
def sortByRank (l : List WPlayer) : List WPlayer :=
  l.insertionSort (fun a b => a.rank ≤ b.rank)

def sortDK (l : List DKEntry) : List DKEntry :=
  l.insertionSort (fun a b => a.rank ≤ b.rank)

/-- First pass (lines 1152-1159): walk the ranked players; a player whose
base position still has unfilled fixed capacity becomes a starter,
otherwise it goes to the bench.  `used` is the `position_used` counter. -/
def fixedPass (rs : Req) : List WPlayer → (String → Nat) →
    List (WPlayer × Option String) × List WPlayer
  | [], _ => ([], [])
  | p :: ps, used =>
    if p.position ∈ slotNames ∧ used p.position < rget rs p.position then
      let r := fixedPass rs ps
        (fun q => if q = p.position then used q + 1 else used q)
      ((p, none) :: r.1, r.2)
    else
      let r := fixedPass rs ps used
      (r.1, p :: r.2)

/-- The mutable state of the flexible-slot passes (lines 1161-1217):
the starters built so far (with their `flex_slot` tag), the bench, and the
three sorted eligibility lists `all_flex_players`, `wrrbte_flex_players`,
`wrrb_flex_players`. -/
structure FlexSt where
  starters : List (WPlayer × Option String)
  bench : List WPlayer
  allFlex : List WPlayer
  wrrbte : List WPlayer
  wrrb : List WPlayer
deriving Repr

/-- One SUPER_FLEX fill (lines 1174-1184): pop the best eligible player,
tag it, move it off the bench and out of the other eligibility lists. -/
def superFlexStep (st : FlexSt) : FlexSt :=
  match st.allFlex with
  | [] => st
  | p :: rest =>
    { starters := st.starters ++ [(p, some "SUPER_FLEX")]
      bench := st.bench.erase p
      allFlex := rest
      wrrbte := st.wrrbte.erase p
      wrrb := st.wrrb.erase p }

/-- One FLEX or WRRBTE_FLEX fill (lines 1188-1208): pop from the
RB/WR/TE list, tag, drop from the bench and the WRRB list. -/
def wrrbteStep (tag : String) (st : FlexSt) : FlexSt :=
  match st.wrrbte with
  | [] => st
  | p :: rest =>
    { starters := st.starters ++ [(p, some tag)]
      bench := st.bench.erase p
      allFlex := st.allFlex
      wrrbte := rest
      wrrb := st.wrrb.erase p }

/-- One WRRB_FLEX fill (lines 1212-1217). -/
def wrrbStep (st : FlexSt) : FlexSt :=
  match st.wrrb with
  | [] => st
  | p :: rest =>
    { starters := st.starters ++ [(p, some "WRRB_FLEX")]
      bench := st.bench.erase p
      allFlex := st.allFlex
      wrrbte := st.wrrbte
      wrrb := rest }

def iterN {α : Type} (f : α → α) : Nat → α → α
  | 0, x => x
  | n + 1, x => iterN f n (f x)

/-- The state after the fixed pass (lines 1150-1170): fixed starters, the
bench, and the three rank-sorted eligibility views of the bench. -/
def flexInit (rs : Req) (players : List WPlayer) : FlexSt :=
  { starters := (fixedPass rs players (fun _ => 0)).1
    bench := (fixedPass rs players (fun _ => 0)).2
    allFlex := sortByRank ((fixedPass rs players (fun _ => 0)).2.filter
      (fun p => decide (p.position ∈ offensivePositions)))
    wrrbte := sortByRank ((fixedPass rs players (fun _ => 0)).2.filter
      (fun p => decide (p.position ∈ rwtePositions)))
    wrrb := sortByRank ((fixedPass rs players (fun _ => 0)).2.filter
      (fun p => decide (p.position ∈ rwPositions))) }

/-- The four flexible-slot passes of lines 1172-1217, in the source's
strict priority order: SUPER_FLEX, then FLEX, then WRRBTE_FLEX, then
WRRB_FLEX, each repeated per its requirement count. -/
def flexRun (rs : Req) (st : FlexSt) : FlexSt :=
  iterN wrrbStep (rget rs "WRRB_FLEX")
    (iterN (wrrbteStep "WRRBTE_FLEX") (rget rs "WRRBTE_FLEX")
      (iterN (wrrbteStep "FLEX") (rget rs "FLEX")
        (iterN superFlexStep (rget rs "SUPER_FLEX") st)))

/-- The two-phase allocation of lines 1150-1217 over the rank-sorted
resolved players. -/
def allocate (rs : Req) (players : List WPlayer) :
    List (WPlayer × Option String) × List WPlayer :=
  ((flexRun rs (flexInit rs players)).starters,
   (flexRun rs (flexInit rs players)).bench)

/-- The slot-name filter of line 1227 (same members as `slotNames`,
listed in the source order of that line). -/
def orderSlots : List String :=
  ["QB", "RB", "WR", "TE", "SUPER_FLEX", "FLEX", "WRRBTE_FLEX", "WRRB_FLEX"]

/-- `position_order` (lines 1223-1229): each recognized slot of
`roster_settings` with positive count, repeated `count` times, in the
dict's insertion order. -/
def positionOrder (rs : Req) : List String :=
  rs.flatMap (fun kv =>
    if 0 < kv.2 ∧ kv.1 ∈ orderSlots then List.replicate kv.2 kv.1 else [])

/-- The grouping key of lines 1234-1239: a flex starter groups under its
`flex_slot`, a fixed starter under its base position. -/
def skey (s : WPlayer × Option String) : String := s.2.getD s.1.position

def sortByRankTagged (l : List (WPlayer × Option String)) :
    List (WPlayer × Option String) :=
  l.insertionSort (fun a b => a.1.rank ≤ b.1.rank)

/-- `starters_by_pos[pos]`, already rank-sorted (lines 1231-1249). -/
def groupAt (starters : List (WPlayer × Option String)) (pos : String) :
    List (WPlayer × Option String) :=
  sortByRankTagged (starters.filter (fun s => skey s = pos))

/-- Lines 1251-1259: walk `position_order`, taking the next not-yet-used
member of each slot's group (`cnt` is the `position_counts` dict). -/
def buildSorted (starters : List (WPlayer × Option String)) :
    List String → (String → Nat) → List (WPlayer × Option String)
  | [], _ => []
  | pos :: rest, cnt =>
    match (groupAt starters pos).get? (cnt pos) with
    | some s =>
      s :: buildSorted starters rest (fun q => if q = pos then cnt q + 1 else cnt q)
    | none => buildSorted starters rest cnt

/-- The chosen DEF/K entry converted to a starters-list element
(lines 1289-1294, 1320-1325): `position` is set, `is_waiver_wire` only
when the waiver-wire branch chose it. -/
def dkToEntry (e : DKEntry) (pos : String) (waiver : Bool) : SlotEntry :=
  { name := e.name, position := pos, position_with_rank := none,
    rank := e.rank, team := e.team,
    sleeper_id := e.sleeper_id, flex_slot := none,
    is_waiver_wire := waiver, is_on_roster := e.is_on_roster,
    is_free_agent := false }

/-- The DEF/K starter selection (lines 1266-1294 for K, 1296-1325 for
DEF): when the slot is required, prefer the best combined (waiver) entry
when it strictly beats the best roster entry, flagging it; fall back to
whichever list is nonempty. -/
def pickBest (needed : Nat) (roster comb : List DKEntry) (pos : String) :
    List SlotEntry :=
  if needed = 0 then []
  else
    match comb with
    | bw :: _ =>
      match roster with
      | br :: _ =>
        if bw.rank < br.rank then [dkToEntry bw pos true]
        else [dkToEntry br pos false]
      | [] => [dkToEntry bw pos true]
    | [] =>
      match roster with
      | br :: _ => [dkToEntry br pos false]
      | [] => []

/-- An offensive starter as an element of the returned `starters` list. -/
def offToEntry (s : WPlayer × Option String) : SlotEntry :=
  { name := s.1.name, position := s.1.position,
    position_with_rank := some s.1.position_with_rank, rank := s.1.rank,
    team := s.1.team, sleeper_id := some s.1.sleeper_id,
    flex_slot := s.2, is_waiver_wire := false,
    is_on_roster := s.1.is_on_roster, is_free_agent := false }

/-- Recover the resolved entry from an offensive starter element. -/
def entryToW (e : SlotEntry) : WPlayer :=
  { name := e.name, position := e.position,
    position_with_rank := e.position_with_rank.getD "", rank := e.rank,
    team := e.team, sleeper_id := e.sleeper_id.getD "",
    is_on_roster := e.is_on_roster }

structure WeeklyResult where
  starters : List SlotEntry
  bench : List WPlayer
deriving DecidableEq, Repr

/-- The allocation-and-selection part of `analyze_weekly_rankings`
(lines 962-1328), over the resolved offensive entries `uop`, the resolved
roster DEF/K entries `rD`/`rK` and the available waiver DEF/K entries
`wD`/`wK`: sort everything by rank, build the combined top-5 DEF/K pools,
allocate the offensive slots, reorder the starters along
`position_order`, then append the chosen K and DEF. -/
def weeklyAnalysis (rs : Req) (uop : List WPlayer)
    (rD wD rK wK : List DKEntry) : WeeklyResult :=
  let players := sortByRank uop
  let rDs := sortDK rD
  let rKs := sortDK rK
  let combD := (sortDK (rDs ++ sortDK wD)).take 5
  let combK := (sortDK (rKs ++ sortDK wK)).take 5
  let alloc := allocate rs players
  let sorted := buildSorted alloc.1 (positionOrder rs) (fun _ => 0)
  let ks := pickBest (rget rs "K") rKs combK "K"
  let ds := pickBest (rget rs "DEF") rDs combD "DEF"
  { starters := sorted.map offToEntry ++ ks ++ ds
    bench := alloc.2 }


/-! ## Invariants of the flexible-slot state

`sortedR` is ascending rank order; `restrictInv posns l b` says `l` holds,
with multiplicity, exactly the members of the bench whose position lies in
`posns` (the eligibility lists are position-filtered views of the bench);
`bestInv` says every starter already beats every bench player of its own
position. -/

def sortedR (l : List WPlayer) : Prop := l.Pairwise (fun a b => a.rank ≤ b.rank)

def restrictInv (posns : List String) (l b : List WPlayer) : Prop :=
  ∀ p : WPlayer, l.count p = if p.position ∈ posns then b.count p else 0

def bestInv (st : FlexSt) : Prop :=
  ∀ x ∈ st.starters, ∀ q ∈ st.bench, x.1.position = q.position → x.1.rank ≤ q.rank

def inv3 (st : FlexSt) : Prop :=
  restrictInv rwPositions st.wrrb st.bench ∧ sortedR st.wrrb ∧ bestInv st

def inv2 (st : FlexSt) : Prop :=
  restrictInv rwtePositions st.wrrbte st.bench ∧ sortedR st.wrrbte ∧ inv3 st

def inv1 (st : FlexSt) : Prop :=
  restrictInv offensivePositions st.allFlex st.bench ∧ sortedR st.allFlex ∧ inv2 st

/-- The conserved multiset of an allocation state: starters plus bench. -/
def content (st : FlexSt) : List WPlayer := st.starters.map Prod.fst ++ st.bench

/-- The tags the four flexible-slot passes can attach. -/
def flexTags : List (Option String) :=
  [some "SUPER_FLEX", some "FLEX", some "WRRBTE_FLEX", some "WRRB_FLEX"]

/-- Every starter is either untagged (fixed pass) or tagged by one of the
four flexible passes. -/
def tagsOK (st : FlexSt) : Prop :=
  ∀ x ∈ st.starters, x.2 = none ∨ x.2 ∈ flexTags

instance : IsTotal WPlayer (fun a b => a.rank ≤ b.rank) :=
  ⟨fun a b => Nat.le_total a.rank b.rank⟩

instance : IsTrans WPlayer (fun a b => a.rank ≤ b.rank) :=
  ⟨fun _ _ _ => Nat.le_trans⟩

instance : IsTotal (WPlayer × Option String) (fun a b => a.1.rank ≤ b.1.rank) :=
  ⟨fun a b => Nat.le_total a.1.rank b.1.rank⟩

instance : IsTrans (WPlayer × Option String) (fun a b => a.1.rank ≤ b.1.rank) :=
  ⟨fun _ _ _ => Nat.le_trans⟩

instance : IsTotal DKEntry (fun a b => a.rank ≤ b.rank) :=
  ⟨fun a b => Nat.le_total a.rank b.rank⟩

instance : IsTrans DKEntry (fun a b => a.rank ≤ b.rank) :=
  ⟨fun _ _ _ => Nat.le_trans⟩

/-! ## The offensive resolution loop of `analyze_weekly_rankings`
(lines 849-963): each weekly 'OP' ranking row is matched against the
user's roster independently — exact full-name equality first, then
normalized-name equality, then fuzzy matching over the roster candidates
with the 95/85 thresholds.  A matched row appends a resolved entry with
rank `index + 1`; nothing removes a roster player from the candidate pool
once matched. -/

/-- A weekly 'OP' ranking row (`'PLAYER NAME'` and `'POS'`). -/
structure OPRow where
  player_name : String
  pos : String
deriving DecidableEq, Repr

/-- A member of the user's roster (`user_players`): a Sleeper player id. -/
structure UserPlayer where
  player_id : String
deriving DecidableEq, Repr

/-- `sleeper_players.get(pid)` over the directory's items. -/
def lookupSleeper (sps : List (String × SleeperPlayer)) (pid : String) :
    Option SleeperPlayer :=
  lookupStr sps pid

/-- The base position extracted from `position_with_rank`
(lines 866-873): if the string starts with a letter, the prefix before
the first digit; otherwise the string itself. -/
def basePosOf (pwr : String) : String :=
  if pwr ≠ "" ∧ (pwr.data.headD ' ').isAlpha then
    String.mk (pwr.data.takeWhile (fun c => ¬ c.isDigit))
  else pwr

/-- Lines 877-910: walk the roster in order; for each member found in the
directory, first try exact full-name equality, then normalized-name
equality; stop at the first hit. -/
def exactOrNormMatch (sps : List (String × SleeperPlayer)) :
    List UserPlayer → String → Option (String × SleeperPlayer)
  | [], _ => none
  | up :: rest, pname =>
    match lookupSleeper sps up.player_id with
    | some sp =>
      if sp.full_name = pname then some (up.player_id, sp)
      else if normalizeName pname = normalizeName sp.full_name then
        some (up.player_id, sp)
      else exactOrNormMatch sps rest pname
    | none => exactOrNormMatch sps rest pname

/-- Lines 914-921: the fuzzy candidates, `(full_name, player_id)` for each
roster member present in the directory with a nonempty name. -/
def rosterCandidates (sps : List (String × SleeperPlayer))
    (ups : List UserPlayer) : List (String × String) :=
  ups.filterMap (fun up =>
    match lookupSleeper sps up.player_id with
    | some sp => if sp.full_name ≠ "" then some (sp.full_name, up.player_id) else none
    | none => none)

/-- One iteration of the row loop (lines 854-960): `idx` is the 0-based
row index, so a resolved entry gets rank `idx + 1`. -/
def resolveRow (tsr fr : String → String → Nat)
    (sps : List (String × SleeperPlayer)) (ups : List UserPlayer)
    (idx : Nat) (row : OPRow) : Option WPlayer :=
  let pname := stripStr row.player_name
  let pwr := stripStr row.pos
  if pname = "" ∨ pwr = "" then none
  else
    let base := basePosOf pwr
    match exactOrNormMatch sps ups pname with
    | some (pid, sp) =>
      some { name := pname, position := base, position_with_rank := pwr,
             rank := idx + 1, team := sp.team, sleeper_id := pid,
             is_on_roster := true }
    | none =>
      let cands := rosterCandidates sps ups
      match extractOne (fun c => tsr pname c) (cands.map Prod.fst) with
      | none => none
      | some (matchedName, score) =>
        if 95 ≤ score then
          let fpNorm := lowerStr (normalizeName pname)
          let slNorm := lowerStr (normalizeName matchedName)
          let fpFirst := firstToken fpNorm
          let slFirst := firstToken slNorm
          if 0 < fpFirst.length ∧ 0 < slFirst.length then
            if 85 ≤ fr fpFirst slFirst then
              match lookupStr cands matchedName with
              | some pid =>
                match lookupSleeper sps pid with
                | some sp2 =>
                  some { name := pname, position := base,
                         position_with_rank := pwr, rank := idx + 1,
                         team := sp2.team, sleeper_id := pid,
                         is_on_roster := true }
                | none => none
              | none => none
            else none
          else none
        else none

/-- The full resolution of the 'OP' rows into the rank-sorted
`user_offensive_players` list (lines 854-963). -/
def resolveOffensive (tsr fr : String → String → Nat)
    (sps : List (String × SleeperPlayer)) (ups : List UserPlayer)
    (rows : List OPRow) : List WPlayer :=
  sortByRank (rows.enum.filterMap (fun ir => resolveRow tsr fr sps ups ir.1 ir.2))

/-! ## RestOfSeasonRecommender: `analyze_ros_recommendations`
(lines 602-758). -/

/-- A ROS-resolved player dict (`user_ros_players` / `free_agents`
elements). -/
structure RosPlayer where
  player_id : String
  name : String
  position : String
  position_with_rank : String
  team : String
  rank : Nat
deriving DecidableEq, Repr

def sortRosByRank (l : List RosPlayer) : List RosPlayer :=
  l.insertionSort (fun a b => a.rank ≤ b.rank)

/-- Python `sorted(key=rank, reverse=True)`: stable descending. -/
def sortRosByRankDesc (l : List RosPlayer) : List RosPlayer :=
  l.insertionSort (fun a b => b.rank ≤ a.rank)

/-- Python `max(l, key=rank)` over a nonempty list: the first maximal
element. -/
def maxByRank (p : RosPlayer) : List RosPlayer → RosPlayer
  | [] => p
  | q :: rest => maxByRank (if q.rank > p.rank then q else p) rest

/-- Python `min(l, key=rank)` over a nonempty list: the first minimal
element. -/
def minByRank (p : RosPlayer) : List RosPlayer → RosPlayer
  | [] => p
  | q :: rest => minByRank (if q.rank < p.rank then q else p) rest

structure RosRec where
  drop : RosPlayer
  add : RosPlayer
  improvement : Int
deriving DecidableEq, Repr

/-- The per-position recommendation body of lines 709-728: compare the
user's worst-ranked player at the position with the best-ranked free
agent there; recommend only when the free agent is strictly better. -/
def posRecs (userRos freeAgents : List RosPlayer) (posn : String) :
    List RosRec :=
  let ups := userRos.filter (fun p => p.position = posn)
  let fas := freeAgents.filter (fun p => p.position = posn)
  match ups, fas with
  | u :: urest, f :: frest =>
    let worst := maxByRank u urest
    let best := minByRank f frest
    if best.rank < worst.rank then
      [{ drop := worst, add := best,
         improvement := (worst.rank : Int) - (best.rank : Int) }]
    else []
  | _, _ => []

/-- The pairing loop of lines 740-750: pair the i-th best free agent with
the i-th worst roster player while the swap strictly improves, stopping
at the first non-improving pair. -/
def pairLoop : List RosPlayer → List RosPlayer → List (RosPlayer × RosPlayer)
  | f :: fs, u :: us => if f.rank < u.rank then (f, u) :: pairLoop fs us else []
  | _, _ => []

/-- `best_adds` / `worst_drops` (lines 730-750): both empty unless the
user list and the free-agent list are nonempty; otherwise built from the
pairing loop over the rank-ascending free agents and the rank-descending
roster players. -/
def rosBestAdds (userRos freeAgents : List RosPlayer) :
    List RosPlayer × List RosPlayer :=
  match userRos, freeAgents with
  | _ :: _, _ :: _ =>
    let sfa := sortRosByRank freeAgents
    let sup := sortRosByRankDesc userRos
    let ps := pairLoop sfa sup
    (ps.map Prod.fst, ps.map Prod.snd)
  | _, _ => ([], [])

/-! ## OptimalLineupComputer: the upgrade pairing of
`analyze_optimal_lineup_with_free_agents` (lines 1525-1587), over the
`added_players` (optimal-only starters) and `dropped_players`
(current-only starters). -/

structure Upgrade where
  position : String
  drop : SlotEntry
  add : SlotEntry
  improvement : Int
deriving DecidableEq, Repr

/-- The replacement-eligibility test of lines 1550-1570. -/
def canReplace (ap dp : SlotEntry) : Bool :=
  if ap.position = dp.position then true
  else if ap.flex_slot.isSome && dp.flex_slot.isSome then
    rwtePositions.contains ap.position && rwtePositions.contains dp.position
  else if ap.flex_slot.isSome || dp.flex_slot.isSome then
    rwtePositions.contains ap.position && rwtePositions.contains dp.position
  else false

/-- The inner scan of lines 1542-1576: find the dropped player (skipping
DEF/K) that maximizes `dropped.rank - added.rank`, keeping only strictly
increasing improvements over the running best, which starts at 0. -/
def bestDropAux (ap : SlotEntry) :
    List SlotEntry → Option SlotEntry → Int → Option SlotEntry × Int
  | [], bm, bi => (bm, bi)
  | dp :: rest, bm, bi =>
    if dp.position = "DEF" ∨ dp.position = "K" then bestDropAux ap rest bm bi
    else if canReplace ap dp then
      let imp : Int := (dp.rank : Int) - (ap.rank : Int)
      if imp > bi then bestDropAux ap rest (some dp) imp
      else bestDropAux ap rest bm bi
    else bestDropAux ap rest bm bi

/-- The upgrade-pairing loop of lines 1539-1587: each added free agent is
paired with its best matching dropped player when the improvement is
strictly positive; a consumed dropped player is removed from the pool. -/
def computeUpgrades : List SlotEntry → List SlotEntry → List Upgrade
  | [], _ => []
  | ap :: rest, dropped =>
    if ap.is_free_agent then
      match bestDropAux ap dropped none 0 with
      | (some bm, bi) =>
        if 0 < bi then
          { position := ap.position, drop := bm, add := ap, improvement := bi } ::
            computeUpgrades rest (dropped.erase bm)
        else computeUpgrades rest dropped
      | (none, _) => computeUpgrades rest dropped
    else computeUpgrades rest dropped


/-! ## Concrete inputs for scenario theorems -/

/-- Two same-team same-position "Smith" directory entries: the ambiguous
fallback scenario. -/
def smithsDir : List (String × SleeperPlayer) :=
  [("s1", { full_name := "Aaron Smith", first_name := "Aaron",
            last_name := "Smith", team := "KC", position := "RB" }),
   ("s2", { full_name := "Adam Smith", first_name := "Adam",
            last_name := "Smith", team := "KC", position := "RB" })]

/-- A one-player directory for the duplicate-resolution scenario. -/
def dupSleepers : List (String × SleeperPlayer) :=
  [("1", { full_name := "John Smith", first_name := "John",
           last_name := "Smith", team := "KC", position := "WR" })]

def dupUps : List UserPlayer := [{ player_id := "1" }]

/-- Two distinct weekly ranking rows naming the same player. -/
def dupRows : List OPRow :=
  [{ player_name := "John Smith", pos := "WR1" },
   { player_name := "John Smith", pos := "WR2" }]

def dupReq : Req := [("WR", 2)]

/-- The spec's flex allocation scenario: `{QB:1, RB:2, WR:2, FLEX:1}`. -/
def c4Req : Req := [("QB", 1), ("RB", 2), ("WR", 2), ("FLEX", 1)]

def mkW (nm ps : String) (rk : Nat) : WPlayer :=
  { name := nm, position := ps, position_with_rank := ps, rank := rk,
    team := "", sleeper_id := nm, is_on_roster := true }

/-- The spec scenario's ranked list:
QB rank 1, RB ranks 2 and 3, WR ranks 4 and 5, RB rank 6. -/
def c4Players : List WPlayer :=
  [mkW "qb1" "QB" 1, mkW "rb2" "RB" 2, mkW "rb3" "RB" 3,
   mkW "wr4" "WR" 4, mkW "wr5" "WR" 5, mkW "rb6" "RB" 6]

/-- A free-agent kicker entry for the DEF/K selection witness. -/
def c7wK : DKEntry :=
  { name := "K1", rank := 1, team := "KC", sleeper_id := none,
    is_on_roster := false }

/-- A free-agent defense entry for the DEF/K selection witness. -/
def c7wD : DKEntry :=
  { name := "D1", rank := 1, team := "SF", sleeper_id := none,
    is_on_roster := false }

def c7wReq : Req := [("K", 1), ("DEF", 1)]

/-! ## Theorems -/

/-- C9 counterexample: `_normalize_name(5)` evaluates `5 .lower()` and
raises `AttributeError` instead of coercing the non-string to `""`. -/
theorem c9_nonstring_raises :
    normalizeNamePy (PyVal.int 5) = PyResult.exn "AttributeError" := rfl

/-- C9 (amended): `_normalize_name` returns `""` on every falsy input
(empty or undefined), and never raises on a string input; a truthy
non-string input, however, raises `AttributeError` rather than being
coerced to the empty string. -/
theorem c9_normalize_error_handling :
    (∀ v : PyVal, v.truthy = false → normalizeNamePy v = PyResult.ok "") ∧
    (∀ s : String, normalizeNamePy (PyVal.str s) = PyResult.ok (normalizeName s)) ∧
    (∀ n : Int, n ≠ 0 → normalizeNamePy (PyVal.int n) = PyResult.exn "AttributeError") := by
  refine ⟨fun v hv => ?_, fun s => ?_, fun n hn => ?_⟩
  · simp [normalizeNamePy, hv]
  · by_cases hs : s = ""
    · subst hs; rfl
    · simp [normalizeNamePy, PyVal.truthy, hs]
  · simp [normalizeNamePy, PyVal.truthy, hn]

theorem c9_witness :
    PyVal.truthy (PyVal.str "") = false ∧
    normalizeNamePy (PyVal.str "") = PyResult.ok "" :=
  ⟨rfl, c9_normalize_error_handling.1 (PyVal.str "") rfl⟩

/-- The accumulator invariant of the `bestDropAux` scan: whenever the
running best match is some player, the running best improvement is that
player's rank minus the added player's rank, and it is positive. -/
theorem bestDropAux_inv (ap : SlotEntry) :
    ∀ (dropped : List SlotEntry) (bm : Option SlotEntry) (bi : Int),
      (∀ m, bm = some m → bi = (m.rank : Int) - (ap.rank : Int)) →
      ∀ m, (bestDropAux ap dropped bm bi).1 = some m →
        (bestDropAux ap dropped bm bi).2 = (m.rank : Int) - (ap.rank : Int) := by
  intro dropped
  induction dropped with
  | nil => intro bm bi h m hm; exact h m hm
  | cons dp rest ih =>
    intro bm bi h m
    by_cases hdk : dp.position = "DEF" ∨ dp.position = "K"
    · simp only [bestDropAux, if_pos hdk]; exact ih bm bi h m
    · simp only [bestDropAux, if_neg hdk]
      by_cases hcr : canReplace ap dp
      · simp only [if_pos hcr]
        by_cases himp : ((dp.rank : Int) - (ap.rank : Int)) > bi
        · simp only [if_pos himp]
          exact ih (some dp) _ (fun m' hm' => by cases hm'; rfl) m
        · simp only [if_neg himp]; exact ih bm bi h m
      · simp only [if_neg hcr]; exact ih bm bi h m

/-- C3: every emitted upgrade recommendation — from the free-agent upgrade
pairing of `analyze_optimal_lineup_with_free_agents` and from the
per-position recommendations of `analyze_ros_recommendations` — has
strictly positive improvement equal to the dropped player's rank minus the
added player's rank. -/
theorem c3_improvement_positive :
    (∀ (added dropped : List SlotEntry) (u : Upgrade),
       u ∈ computeUpgrades added dropped →
       0 < u.improvement ∧
       u.improvement = (u.drop.rank : Int) - (u.add.rank : Int)) ∧
    (∀ (userRos freeAgents : List RosPlayer) (posn : String) (r : RosRec),
       r ∈ posRecs userRos freeAgents posn →
       0 < r.improvement ∧
       r.improvement = (r.drop.rank : Int) - (r.add.rank : Int)) := by
  constructor
  · intro added
    induction added with
    | nil => intro dropped u hu; simp [computeUpgrades] at hu
    | cons ap rest ih =>
      intro dropped u hu
      by_cases hfa : ap.is_free_agent
      · simp only [computeUpgrades, if_pos hfa] at hu
        rcases hb : bestDropAux ap dropped none 0 with ⟨bm, bi⟩
        rw [hb] at hu
        cases bm with
        | none => exact ih dropped u hu
        | some m =>
          by_cases hpos : (0 : Int) < bi
          · simp only [if_pos hpos, List.mem_cons] at hu
            cases hu with
            | inl he =>
              subst he
              refine ⟨hpos, ?_⟩
              have := bestDropAux_inv ap dropped none 0 (fun m hm => by cases hm) m
              rw [hb] at this
              simpa using this rfl
            | inr ht => exact ih _ u ht
          · simp only [if_neg hpos] at hu; exact ih dropped u hu
      · simp only [computeUpgrades, if_neg hfa] at hu; exact ih dropped u hu
  · intro userRos freeAgents posn r hr
    unfold posRecs at hr
    rcases hu : userRos.filter (fun p => p.position = posn) with _ | ⟨u, urest⟩ <;>
      rcases hf : freeAgents.filter (fun p => p.position = posn) with _ | ⟨f, frest⟩ <;>
        rw [hu, hf] at hr <;> simp only at hr
    · cases hr
    · cases hr
    · cases hr
    · by_cases hlt : (minByRank f frest).rank < (maxByRank u urest).rank
      · simp only [if_pos hlt, List.mem_singleton] at hr
        subst hr
        constructor
        · simp only
          omega
        · rfl
      · simp only [if_neg hlt] at hr; cases hr

/-- Every pair produced by the pairing loop is a strict improvement. -/
theorem pairLoop_strict :
    ∀ (fs us : List RosPlayer) (pr : RosPlayer × RosPlayer),
      pr ∈ pairLoop fs us → pr.1.rank < pr.2.rank := by
  intro fs
  induction fs with
  | nil => intro us pr h; simp [pairLoop] at h
  | cons f ft ih =>
    intro us pr h
    cases us with
    | nil => simp [pairLoop] at h
    | cons u ut =>
      by_cases hlt : f.rank < u.rank
      · simp only [pairLoop, if_pos hlt, List.mem_cons] at h
        cases h with
        | inl he => subst he; exact hlt
        | inr ht => exact ih ut pr ht
      · simp only [pairLoop, if_neg hlt] at h; cases h

/-- The i-th pair of the pairing loop pairs the i-th elements of the two
input lists. -/
theorem pairLoop_get :
    ∀ (fs us : List RosPlayer) (i : Nat) (pr : RosPlayer × RosPlayer),
      (pairLoop fs us)[i]? = some pr →
      fs[i]? = some pr.1 ∧ us[i]? = some pr.2 := by
  intro fs
  induction fs with
  | nil => intro us i pr h; simp [pairLoop] at h
  | cons f ft ih =>
    intro us i pr h
    cases us with
    | nil => simp [pairLoop] at h
    | cons u ut =>
      by_cases hlt : f.rank < u.rank
      · simp only [pairLoop, if_pos hlt] at h
        cases i with
        | zero =>
          simp only [List.getElem?_cons_zero, Option.some_inj] at h
          subst h; exact ⟨by simp, by simp⟩
        | succ j =>
          simp only [List.getElem?_cons_succ] at h ⊢
          exact ih ut j pr h
      · simp only [pairLoop, if_neg hlt] at h
        simp at h

/-- The pairing loop stops exactly at the first non-improving pair: if it
stopped while both lists still had an element at the stopping index, that
pair does not improve. -/
theorem pairLoop_stop :
    ∀ (fs us : List RosPlayer) (x y : RosPlayer),
      fs[(pairLoop fs us).length]? = some x →
      us[(pairLoop fs us).length]? = some y →
      y.rank ≤ x.rank := by
  intro fs
  induction fs with
  | nil => intro us x y hx hy; simp at hx
  | cons f ft ih =>
    intro us x y hx hy
    cases us with
    | nil => simp [pairLoop] at hy
    | cons u ut =>
      by_cases hlt : f.rank < u.rank
      · simp only [pairLoop, if_pos hlt, List.length_cons,
          List.getElem?_cons_succ] at hx hy
        exact ih ut x y hx hy
      · simp only [pairLoop, if_neg hlt, List.length_nil,
          List.getElem?_cons_zero, Option.some_inj] at hx hy
        subst hx; subst hy
        omega

/-- C8: `best_adds` and `worst_drops` have equal length, the i-th pair is
the i-th best-ranked free agent against the i-th worst-ranked roster
player, every aligned pair strictly improves, and the loop stops at the
first non-improving pair. -/
theorem c8_best_adds_worst_drops :
    ∀ (userRos freeAgents : List RosPlayer),
      ((rosBestAdds userRos freeAgents).1.length =
        (rosBestAdds userRos freeAgents).2.length) ∧
      (∀ (i : Nat) (a d : RosPlayer),
        (rosBestAdds userRos freeAgents).1[i]? = some a →
        (rosBestAdds userRos freeAgents).2[i]? = some d →
        a.rank < d.rank ∧
        (sortRosByRank freeAgents)[i]? = some a ∧
        (sortRosByRankDesc userRos)[i]? = some d) ∧
      (userRos ≠ [] → freeAgents ≠ [] →
        ∀ x y : RosPlayer,
          (sortRosByRank freeAgents)[(rosBestAdds userRos freeAgents).1.length]? = some x →
          (sortRosByRankDesc userRos)[(rosBestAdds userRos freeAgents).1.length]? = some y →
          y.rank ≤ x.rank) := by
  intro userRos freeAgents
  match hu : userRos, hf : freeAgents with
  | [], _ =>
    refine ⟨rfl, fun i a d ha hd => ?_, fun h1 h2 => absurd rfl h1⟩
    simp [rosBestAdds] at ha
  | u :: ut, [] =>
    refine ⟨rfl, fun i a d ha hd => ?_, fun h1 h2 => absurd rfl h2⟩
    simp [rosBestAdds] at ha
  | u :: ut, f :: ft =>
    simp only [rosBestAdds]
    refine ⟨by simp, fun i a d ha hd => ?_, fun h1 h2 x y hx hy => ?_⟩
    · rcases hpr : (pairLoop (sortRosByRank (f :: ft)) (sortRosByRankDesc (u :: ut)))[i]?
        with _ | pr
      · rw [List.getElem?_map, hpr] at ha; cases ha
      · rw [List.getElem?_map, hpr] at ha hd
        simp only [Option.map_some', Option.some_inj] at ha hd
        have hg := pairLoop_get _ _ i pr hpr
        have hs := pairLoop_strict _ _ pr (List.getElem?_mem hpr)
        subst ha; subst hd
        exact ⟨hs, hg.1, hg.2⟩
    · rw [List.length_map] at hx hy
      exact pairLoop_stop _ _ x y hx hy

/-- The winner reported by the `extractOne` scan is one of the choices. -/
theorem extractOneAux_fst_mem (score : String → Nat) :
    ∀ (cs : List String) (best : String × Nat),
      (extractOneAux score best cs).1 = best.1 ∨ (extractOneAux score best cs).1 ∈ cs := by
  intro cs
  induction cs with
  | nil => intro best; exact Or.inl rfl
  | cons c rest ih =>
    intro best
    by_cases h : score c > best.2
    · simp only [extractOneAux, if_pos h]
      rcases ih (c, score c) with h1 | h2
      · exact Or.inr (by simp [h1])
      · exact Or.inr (List.mem_cons_of_mem _ h2)
    · simp only [extractOneAux, if_neg h]
      rcases ih best with h1 | h2
      · exact Or.inl h1
      · exact Or.inr (List.mem_cons_of_mem _ h2)

theorem extractOne_fst_mem (score : String → Nat) (l : List String)
    (c : String) (s : Nat) (h : extractOne score l = some (c, s)) : c ∈ l := by
  cases l with
  | nil => cases h
  | cons x cs =>
    simp only [extractOne, Option.some_inj] at h
    have := extractOneAux_fst_mem score cs (x, score x)
    rw [h] at this
    rcases this with h1 | h2
    · have hcx : c = x := h1
      rw [hcx]; exact List.mem_cons_self x cs
    · exact List.mem_cons_of_mem _ h2

theorem lookupStr_isSome {α : Type} (l : List (String × α)) (k : String)
    (h : k ∈ l.map Prod.fst) : (lookupStr l k).isSome := by
  rcases List.mem_map.1 h with ⟨e, he, hk⟩
  have : (l.find? (fun e => e.1 = k)).isSome := by
    rw [List.find?_isSome]
    exact ⟨e, he, by simp [hk]⟩
  unfold lookupStr
  rcases hf : l.find? (fun e => e.1 = k) with _ | v
  · rw [hf] at this; cases this
  · rw [hf]; rfl

/-- C5: the fuzzy-matching step of `match_players` accepts the
highest-scoring candidate exactly when its token-sort score is at least
95 and the first tokens of the two normalized names are at least 85
similar (both thresholds inclusive); a pair scoring exactly 95 with
first-token similarity exactly 85 matches, while a score of 94 does
not. -/
theorem c5_fuzzy_thresholds :
    (∀ (tsr fr : String → String → Nat) (name : String)
        (cands : List (String × String)) (chosenKey : String) (score : Nat),
      extractOne (fun k => tsr (normalizeName name) k) (cands.map Prod.fst) =
        some (chosenKey, score) →
      0 < (firstToken (lowerStr (normalizeName name))).length →
      0 < (firstToken (lowerStr chosenKey)).length →
      ((fuzzyStep tsr fr name cands).isSome ↔
        (95 ≤ score ∧
         85 ≤ fr (firstToken (lowerStr (normalizeName name)))
                 (firstToken (lowerStr chosenKey))))) ∧
    fuzzyStep (fun _ _ => 95) (fun _ _ => 85) "jon smith"
      [("john smith", "id1")] = some "id1" ∧
    fuzzyStep (fun _ _ => 94) (fun _ _ => 100) "jon smith"
      [("john smith", "id1")] = Option.none := by
  refine ⟨fun tsr fr name cands chosenKey score hex h1 h2 => ?_, by decide, by decide⟩
  simp only [fuzzyStep]
  simp only [hex]
  by_cases h95 : 95 ≤ score
  · rw [if_pos h95, if_pos ⟨h1, h2⟩]
    by_cases h85 : 85 ≤ fr (firstToken (lowerStr (normalizeName name)))
        (firstToken (lowerStr chosenKey))
    · rw [if_pos h85]
      have hmem : chosenKey ∈ cands.map Prod.fst :=
        extractOne_fst_mem _ _ _ _ hex
      simpa [lookupStr_isSome cands chosenKey hmem] using ⟨h95, h85⟩
    · rw [if_neg h85]
      simp [h85]
  · rw [if_neg h95]
    simp [h95]

/-- C6: the last-name + team + position fallback accepts a match exactly
when the guard fields are usable (nonempty last name, team and position,
team not the free-agent marker `"FA"`) and exactly one directory entry
qualifies; with two same-team same-position "Smith" entries it refuses to
guess. -/
theorem c6_last_name_fallback :
    (∀ (sleepers : List (String × SleeperPlayer)) (name team pos pid : String),
      (fallbackMatch sleepers name team pos = some pid ↔
        (lastTokenOfNormalized (normalizeName name) ≠ "" ∧
         upperStr team ≠ "" ∧ upperStr team ≠ "FA" ∧ upperStr pos ≠ "" ∧
         ((sleepers.filter (fallbackQual name team pos)).map Prod.fst).length = 1 ∧
         pid ∈ (sleepers.filter (fallbackQual name team pos)).map Prod.fst))) ∧
    fallbackMatch smithsDir "Alex Smith" "KC" "RB" = Option.none := by
  refine ⟨fun sleepers name team pos pid => ?_, by decide⟩
  unfold fallbackMatch fallbackCands
  by_cases hg : lastTokenOfNormalized (normalizeName name) ≠ "" ∧
      upperStr team ≠ "" ∧ upperStr team ≠ "FA" ∧ upperStr pos ≠ ""
  · rw [if_pos hg]
    rcases hc : (sleepers.filter (fallbackQual name team pos)).map Prod.fst
      with _ | ⟨x, _ | ⟨y, rest⟩⟩
    · simp
    · simp only [List.length_cons, List.length_nil, List.mem_singleton,
        Option.some_inj]
      constructor
      · intro hx
        exact ⟨hg.1, hg.2.1, hg.2.2.1, hg.2.2.2, trivial, hx.symm⟩
      · intro hr
        exact hr.2.2.2.2.2.symm
    · simp
  · rw [if_neg hg]
    constructor
    · intro h; cases h
    · intro hr
      exact absurd ⟨hr.1, hr.2.1, hr.2.2.1, hr.2.2.2.1⟩ hg

/-- C10: resolution of weekly ranking rows does not consume matched
roster players — two distinct rows naming the same roster player both
resolve to the same sleeper id, so that id occurs twice in the resolved
list and twice across the returned starters and bench (here, with a WR:2
requirement, both copies start).  The statement holds for every choice of
fuzzy scorers because the duplicate rows match exactly. -/
theorem c10_no_consumption_duplicates :
    ∀ tsr fr : String → String → Nat,
      ((resolveOffensive tsr fr dupSleepers dupUps dupRows).map
          WPlayer.sleeper_id = ["1", "1"]) ∧
      ((weeklyAnalysis dupReq
          (resolveOffensive tsr fr dupSleepers dupUps dupRows)
          [] [] [] []).starters.countP
            (fun e => decide (e.sleeper_id = some "1")) +
       (weeklyAnalysis dupReq
          (resolveOffensive tsr fr dupSleepers dupUps dupRows)
          [] [] [] []).bench.countP
            (fun p => decide (p.sleeper_id = "1")) = 2) :=
  fun _ _ => ⟨rfl, rfl⟩

/-- C4: the flexible-slot scenario — requirements
`{QB:1, RB:2, WR:2, FLEX:1}` over
`[QB r1, RB r2, RB r3, WR r4, WR r5, RB r6]` start everyone, with the
rank-6 RB (the best remaining eligible bench player) filling FLEX, and
leave the bench empty. -/
theorem c4_flex_priority_scenario :
    weeklyAnalysis c4Req c4Players [] [] [] [] =
      { starters :=
          [offToEntry (mkW "qb1" "QB" 1, none),
           offToEntry (mkW "rb2" "RB" 2, none),
           offToEntry (mkW "rb3" "RB" 3, none),
           offToEntry (mkW "wr4" "WR" 4, none),
           offToEntry (mkW "wr5" "WR" 5, none),
           offToEntry (mkW "rb6" "RB" 6, some "FLEX")],
        bench := [] } := by
  decide

/-- Counting inside a filtered list. -/
theorem count_filter_eq {α : Type} [DecidableEq α] (p : α → Bool) (a : α)
    (l : List α) : (l.filter p).count a = if p a then l.count a else 0 := by
  by_cases hpa : p a
  · rw [List.count_filter hpa, if_pos hpa]
  · rw [if_neg hpa, List.count_eq_zero]
    intro hmem
    exact hpa (List.of_mem_filter hmem)

/-- The fixed pass only splits the input: starters plus bench is a
permutation of the players handed in. -/
theorem fixedPass_perm (rs : Req) :
    ∀ (ps : List WPlayer) (used : String → Nat),
      ((fixedPass rs ps used).1.map Prod.fst ++ (fixedPass rs ps used).2).Perm ps := by
  intro ps
  induction ps with
  | nil => intro used; simp [fixedPass]
  | cons p rest ih =>
    intro used
    by_cases hc : p.position ∈ slotNames ∧ used p.position < rget rs p.position
    · simp only [fixedPass, if_pos hc, List.map_cons, List.cons_append]
      exact (ih _).cons p
    · simp only [fixedPass, if_neg hc]
      exact List.perm_middle.trans ((ih used).cons p)

/-- Fixed-pass starters carry no flex tag. -/
theorem fixedPass_tags (rs : Req) :
    ∀ (ps : List WPlayer) (used : String → Nat),
      ∀ x ∈ (fixedPass rs ps used).1, x.2 = none := by
  intro ps
  induction ps with
  | nil => intro used x hx; simp [fixedPass] at hx
  | cons p rest ih =>
    intro used x hx
    by_cases hc : p.position ∈ slotNames ∧ used p.position < rget rs p.position
    · simp only [fixedPass, if_pos hc, List.mem_cons] at hx
      rcases hx with he | ht
      · rw [he]
      · exact ih _ x ht
    · simp only [fixedPass, if_neg hc] at hx
      exact ih used x hx

/-- Once a position's capacity is exhausted (or it is not a recognized
slot), the fixed pass never assigns a player of that position. -/
theorem fixedPass_no_assign (rs : Req) :
    ∀ (ps : List WPlayer) (used : String → Nat) (pos : String),
      (rget rs pos ≤ used pos ∨ pos ∉ slotNames) →
      ∀ x ∈ (fixedPass rs ps used).1, x.1.position ≠ pos := by
  intro ps
  induction ps with
  | nil => intro used pos hcap x hx; simp [fixedPass] at hx
  | cons p rest ih =>
    intro used pos hcap x hx
    by_cases hc : p.position ∈ slotNames ∧ used p.position < rget rs p.position
    · simp only [fixedPass, if_pos hc, List.mem_cons] at hx
      rcases hx with he | ht
      · subst he
        intro hpp
        rw [hpp] at hc
        rcases hcap with h1 | h2
        · omega
        · exact h2 hc.1
      · refine ih _ pos ?_ x ht
        rcases hcap with h1 | h2
        · left
          by_cases hpp : pos = p.position
          · subst hpp; simp; omega
          · simpa [hpp] using h1
        · right; exact h2
    · simp only [fixedPass, if_neg hc] at hx
      exact ih used pos hcap x hx

/-- The fixed pass respects remaining capacity per position. -/
theorem fixedPass_countP (rs : Req) :
    ∀ (ps : List WPlayer) (used : String → Nat) (pos : String),
      used pos ≤ rget rs pos →
      (fixedPass rs ps used).1.countP (fun x => decide (x.1.position = pos)) +
        used pos ≤ rget rs pos := by
  intro ps
  induction ps with
  | nil =>
    intro used pos hle
    simpa [fixedPass] using hle
  | cons p rest ih =>
    intro used pos hle
    by_cases hc : p.position ∈ slotNames ∧ used p.position < rget rs p.position
    · simp only [fixedPass, if_pos hc]
      by_cases hpp : p.position = pos
      · subst hpp
        have hle2 : (if p.position = p.position then used p.position + 1
            else used p.position) ≤ rget rs p.position := by
          rw [if_pos rfl]; exact hc.2
        have h2 := ih (fun q => if q = p.position then used q + 1 else used q)
          p.position hle2
        simp at h2
        rw [List.countP_cons, if_pos (by simp)]
        omega
      · have hne : ¬ pos = p.position := fun h => hpp h.symm
        have hle2 : (if pos = p.position then used pos + 1 else used pos) ≤
            rget rs pos := by
          rw [if_neg hne]; exact hle
        have h2 := ih (fun q => if q = p.position then used q + 1 else used q)
          pos hle2
        simp [hne] at h2
        rw [List.countP_cons, if_neg (by simp [hpp])]
        omega
    · simp only [fixedPass, if_neg hc]
      exact ih used pos hle

/-- Every fixed-pass assignment certifies that its position is a
recognized slot with positive requirement. -/
theorem fixedPass_assigned_ok (rs : Req) :
    ∀ (ps : List WPlayer) (used : String → Nat),
      ∀ x ∈ (fixedPass rs ps used).1,
        x.1.position ∈ slotNames ∧ 0 < rget rs x.1.position := by
  intro ps
  induction ps with
  | nil => intro used x hx; simp [fixedPass] at hx
  | cons p rest ih =>
    intro used x hx
    by_cases hc : p.position ∈ slotNames ∧ used p.position < rget rs p.position
    · simp only [fixedPass, if_pos hc, List.mem_cons] at hx
      rcases hx with he | ht
      · subst he
        exact ⟨hc.1, Nat.lt_of_le_of_lt (Nat.zero_le _) hc.2⟩
      · exact ih _ x ht
    · simp only [fixedPass, if_neg hc] at hx
      exact ih used x hx

/-- On a rank-sorted input, every fixed-pass starter's rank is at most the
rank of every same-position fixed-pass bench player. -/
theorem fixedPass_best (rs : Req) :
    ∀ (ps : List WPlayer) (used : String → Nat),
      sortedR ps →
      ∀ x ∈ (fixedPass rs ps used).1, ∀ q ∈ (fixedPass rs ps used).2,
        x.1.position = q.position → x.1.rank ≤ q.rank := by
  intro ps
  induction ps with
  | nil => intro used hs x hx; simp [fixedPass] at hx
  | cons p rest ih =>
    intro used hs x hx q hq hpos
    have hs' : sortedR rest := (List.pairwise_cons.1 hs).2
    have hhead : ∀ y ∈ rest, p.rank ≤ y.rank := (List.pairwise_cons.1 hs).1
    by_cases hc : p.position ∈ slotNames ∧ used p.position < rget rs p.position
    · simp only [fixedPass, if_pos hc, List.mem_cons] at hx hq
      rcases hx with he | ht
      · subst he
        have hqr : q ∈ rest :=
          ((fixedPass_perm rs rest _).mem_iff.1 (List.mem_append_right _ hq))
        exact hhead q hqr
      · exact ih _ hs' x ht q hq hpos
    · simp only [fixedPass, if_neg hc, List.mem_cons] at hx hq
      rcases hq with he | hb
      · subst he
        exfalso
        have : x.1.position ≠ q.position := by
          refine fixedPass_no_assign rs rest used q.position ?_ x hx
          by_cases hin : q.position ∈ slotNames
          · left
            rcases not_and_or.1 hc with h1 | h2
            · exact absurd hin h1
            · omega
          · right; exact hin
        exact this hpos
      · exact ih used hs' x hx q hb hpos

/-- Erasing the same player from a filtered view and from the bench keeps
the view a filtered view. -/
theorem restrictInv_erase (posns : List String) (l b : List WPlayer)
    (p : WPlayer) (h : restrictInv posns l b) :
    restrictInv posns (l.erase p) (b.erase p) := by
  intro q
  have hq := h q
  rw [List.count_erase, List.count_erase, hq]
  by_cases hqp : q.position ∈ posns
  · rw [if_pos hqp, if_pos hqp]
  · rw [if_neg hqp, if_neg hqp, Nat.zero_sub]

/-- Popping the head of a filtered view and erasing it from the bench
keeps the rest a filtered view. -/
theorem restrictInv_tail (posns : List String) (p : WPlayer)
    (rest b : List WPlayer) (h : restrictInv posns (p :: rest) b) :
    restrictInv posns rest (b.erase p) := by
  intro q
  have hq := h q
  rw [List.count_cons] at hq
  rw [List.count_erase]
  by_cases hqp : q.position ∈ posns
  · rw [if_pos hqp] at hq ⊢
    omega
  · rw [if_neg hqp] at hq ⊢
    omega

/-- The head of a nonempty filtered view is on the bench and its position
is eligible. -/
theorem restrictInv_head (posns : List String) (p : WPlayer)
    (rest b : List WPlayer) (h : restrictInv posns (p :: rest) b) :
    p ∈ b ∧ p.position ∈ posns := by
  have hp := h p
  rw [List.count_cons] at hp
  simp only [beq_self_eq_true, if_true] at hp
  by_cases hpp : p.position ∈ posns
  · refine ⟨?_, hpp⟩
    rw [if_pos hpp] at hp
    have : 0 < b.count p := by omega
    exact List.count_pos_iff.1 this
  · rw [if_neg hpp] at hp
    omega

/-- A same-position bench player is in the filtered view. -/
theorem restrictInv_mem (posns : List String) (l b : List WPlayer)
    (h : restrictInv posns l b) (q : WPlayer) (hq : q ∈ b)
    (hpos : q.position ∈ posns) : q ∈ l := by
  have := h q
  rw [if_pos hpos] at this
  have hcount : 0 < b.count q := List.count_pos_iff.2 hq
  exact List.count_pos_iff.1 (this ▸ hcount)

/-- A SUPER_FLEX fill preserves the eligibility-view invariants, the
starters-beat-bench invariant, and the starters-plus-bench multiset. -/
theorem superFlexStep_pres (st : FlexSt) (h : inv1 st) :
    inv1 (superFlexStep st) ∧ (content (superFlexStep st)).Perm (content st) := by
  obtain ⟨raf, saf, rte, ste, rrb, srb, hbest⟩ := h
  rcases hflex : st.allFlex with _ | ⟨p, rest⟩
  · have hid : superFlexStep st = st := by unfold superFlexStep; rw [hflex]
    rw [hid]
    exact ⟨⟨raf, saf, rte, ste, rrb, srb, hbest⟩, List.Perm.refl _⟩
  · rw [hflex] at raf saf
    obtain ⟨hpb, hppos⟩ := restrictInv_head _ p rest st.bench raf
    have hstep : superFlexStep st =
        { starters := st.starters ++ [(p, some "SUPER_FLEX")]
          bench := st.bench.erase p
          allFlex := rest
          wrrbte := st.wrrbte.erase p
          wrrb := st.wrrb.erase p } := by
      unfold superFlexStep; rw [hflex]
    rw [hstep]
    refine ⟨⟨restrictInv_tail _ p rest _ raf, (List.pairwise_cons.1 saf).2,
      restrictInv_erase _ _ _ p rte,
      List.Pairwise.sublist (List.erase_sublist _ _) ste,
      restrictInv_erase _ _ _ p rrb,
      List.Pairwise.sublist (List.erase_sublist _ _) srb, ?_⟩, ?_⟩
    · intro x hx q hq hpos
      rcases List.mem_append.1 hx with hxs | hxp
      · exact hbest x hxs q (List.Sublist.mem hq (List.erase_sublist _ _)) hpos
      · have hxe : x = (p, some "SUPER_FLEX") := List.mem_singleton.1 hxp
        subst hxe
        have hqb : q ∈ st.bench := List.Sublist.mem hq (List.erase_sublist _ _)
        have hqpos : q.position ∈ offensivePositions := by
          rw [← hpos]; exact hppos
        have hqaf : q ∈ p :: rest := restrictInv_mem _ _ _ raf q hqb hqpos
        rcases List.mem_cons.1 hqaf with hqp | hqr
        · rw [hqp]
        · exact (List.pairwise_cons.1 saf).1 q hqr
    · show ((st.starters ++ [(p, some "SUPER_FLEX")]).map Prod.fst ++
        st.bench.erase p).Perm (st.starters.map Prod.fst ++ st.bench)
      rw [List.map_append, List.append_assoc]
      refine List.Perm.append_left _ ?_
      show (p :: st.bench.erase p).Perm st.bench
      exact (List.perm_cons_erase hpb).symm

/-- A FLEX or WRRBTE_FLEX fill preserves the remaining invariants and the
starters-plus-bench multiset. -/
theorem wrrbteStep_pres (tag : String) (st : FlexSt) (h : inv2 st) :
    inv2 (wrrbteStep tag st) ∧ (content (wrrbteStep tag st)).Perm (content st) := by
  obtain ⟨rte, ste, rrb, srb, hbest⟩ := h
  rcases hflex : st.wrrbte with _ | ⟨p, rest⟩
  · have hid : wrrbteStep tag st = st := by unfold wrrbteStep; rw [hflex]
    rw [hid]
    exact ⟨⟨rte, ste, rrb, srb, hbest⟩, List.Perm.refl _⟩
  · rw [hflex] at rte ste
    obtain ⟨hpb, hppos⟩ := restrictInv_head _ p rest st.bench rte
    have hstep : wrrbteStep tag st =
        { starters := st.starters ++ [(p, some tag)]
          bench := st.bench.erase p
          allFlex := st.allFlex
          wrrbte := rest
          wrrb := st.wrrb.erase p } := by
      unfold wrrbteStep; rw [hflex]
    rw [hstep]
    refine ⟨⟨restrictInv_tail _ p rest _ rte, (List.pairwise_cons.1 ste).2,
      restrictInv_erase _ _ _ p rrb,
      List.Pairwise.sublist (List.erase_sublist _ _) srb, ?_⟩, ?_⟩
    · intro x hx q hq hpos
      rcases List.mem_append.1 hx with hxs | hxp
      · exact hbest x hxs q (List.Sublist.mem hq (List.erase_sublist _ _)) hpos
      · have hxe : x = (p, some tag) := List.mem_singleton.1 hxp
        subst hxe
        have hqb : q ∈ st.bench := List.Sublist.mem hq (List.erase_sublist _ _)
        have hqpos : q.position ∈ rwtePositions := by
          rw [← hpos]; exact hppos
        have hqte : q ∈ p :: rest := restrictInv_mem _ _ _ rte q hqb hqpos
        rcases List.mem_cons.1 hqte with hqp | hqr
        · rw [hqp]
        · exact (List.pairwise_cons.1 ste).1 q hqr
    · show ((st.starters ++ [(p, some tag)]).map Prod.fst ++
        st.bench.erase p).Perm (st.starters.map Prod.fst ++ st.bench)
      rw [List.map_append, List.append_assoc]
      refine List.Perm.append_left _ ?_
      show (p :: st.bench.erase p).Perm st.bench
      exact (List.perm_cons_erase hpb).symm

/-- A WRRB_FLEX fill preserves the remaining invariant and the
starters-plus-bench multiset. -/
theorem wrrbStep_pres (st : FlexSt) (h : inv3 st) :
    inv3 (wrrbStep st) ∧ (content (wrrbStep st)).Perm (content st) := by
  obtain ⟨rrb, srb, hbest⟩ := h
  rcases hflex : st.wrrb with _ | ⟨p, rest⟩
  · have hid : wrrbStep st = st := by unfold wrrbStep; rw [hflex]
    rw [hid]
    exact ⟨⟨rrb, srb, hbest⟩, List.Perm.refl _⟩
  · rw [hflex] at rrb srb
    obtain ⟨hpb, hppos⟩ := restrictInv_head _ p rest st.bench rrb
    have hstep : wrrbStep st =
        { starters := st.starters ++ [(p, some "WRRB_FLEX")]
          bench := st.bench.erase p
          allFlex := st.allFlex
          wrrbte := st.wrrbte
          wrrb := rest } := by
      unfold wrrbStep; rw [hflex]
    rw [hstep]
    refine ⟨⟨restrictInv_tail _ p rest _ rrb, (List.pairwise_cons.1 srb).2, ?_⟩, ?_⟩
    · intro x hx q hq hpos
      rcases List.mem_append.1 hx with hxs | hxp
      · exact hbest x hxs q (List.Sublist.mem hq (List.erase_sublist _ _)) hpos
      · have hxe : x = (p, some "WRRB_FLEX") := List.mem_singleton.1 hxp
        subst hxe
        have hqb : q ∈ st.bench := List.Sublist.mem hq (List.erase_sublist _ _)
        have hqpos : q.position ∈ rwPositions := by
          rw [← hpos]; exact hppos
        have hqrb : q ∈ p :: rest := restrictInv_mem _ _ _ rrb q hqb hqpos
        rcases List.mem_cons.1 hqrb with hqp | hqr
        · rw [hqp]
        · exact (List.pairwise_cons.1 srb).1 q hqr
    · show ((st.starters ++ [(p, some "WRRB_FLEX")]).map Prod.fst ++
        st.bench.erase p).Perm (st.starters.map Prod.fst ++ st.bench)
      rw [List.map_append, List.append_assoc]
      refine List.Perm.append_left _ ?_
      show (p :: st.bench.erase p).Perm st.bench
      exact (List.perm_cons_erase hpb).symm

theorem iterN_pres {α : Type} (f : α → α) (P : α → Prop)
    (hf : ∀ s, P s → P (f s)) :
    ∀ (n : Nat) (s : α), P s → P (iterN f n s) := by
  intro n
  induction n with
  | zero => intro s hs; exact hs
  | succ m ih => intro s hs; exact ih (f s) (hf s hs)

/-- One fill appends at most one starter, tagged with the pass's slot. -/
theorem superFlexStep_shape (st : FlexSt) :
    (superFlexStep st).starters = st.starters ∨
    ∃ p, (superFlexStep st).starters = st.starters ++ [(p, some "SUPER_FLEX")] := by
  rcases hflex : st.allFlex with _ | ⟨p, rest⟩
  · left; unfold superFlexStep; rw [hflex]
  · right; exact ⟨p, by unfold superFlexStep; rw [hflex]⟩

theorem wrrbteStep_shape (tag : String) (st : FlexSt) :
    (wrrbteStep tag st).starters = st.starters ∨
    ∃ p, (wrrbteStep tag st).starters = st.starters ++ [(p, some tag)] := by
  rcases hflex : st.wrrbte with _ | ⟨p, rest⟩
  · left; unfold wrrbteStep; rw [hflex]
  · right; exact ⟨p, by unfold wrrbteStep; rw [hflex]⟩

theorem wrrbStep_shape (st : FlexSt) :
    (wrrbStep st).starters = st.starters ∨
    ∃ p, (wrrbStep st).starters = st.starters ++ [(p, some "WRRB_FLEX")] := by
  rcases hflex : st.wrrb with _ | ⟨p, rest⟩
  · left; unfold wrrbStep; rw [hflex]
  · right; exact ⟨p, by unfold wrrbStep; rw [hflex]⟩

/-- Iterating a pass whose tag a predicate rejects leaves that predicate's
starter count unchanged. -/
theorem iterN_countP_pres (f : FlexSt → FlexSt) (tag : String)
    (hshape : ∀ st, (f st).starters = st.starters ∨
      ∃ p, (f st).starters = st.starters ++ [(p, some tag)])
    (pr : WPlayer × Option String → Bool)
    (hpr : ∀ p, pr (p, some tag) = false) :
    ∀ (n : Nat) (st : FlexSt),
      (iterN f n st).starters.countP pr = st.starters.countP pr := by
  intro n
  induction n with
  | zero => intro st; rfl
  | succ m ih =>
    intro st
    show (iterN f m (f st)).starters.countP pr = _
    rw [ih (f st)]
    rcases hshape st with he | ⟨p, he⟩
    · rw [he]
    · rw [he, List.countP_append]
      simp [List.countP_cons, hpr p]

/-- Iterating a pass `n` times adds at most `n` to any starter count. -/
theorem iterN_countP_le (f : FlexSt → FlexSt) (tag : String)
    (hshape : ∀ st, (f st).starters = st.starters ∨
      ∃ p, (f st).starters = st.starters ++ [(p, some tag)])
    (pr : WPlayer × Option String → Bool) :
    ∀ (n : Nat) (st : FlexSt),
      (iterN f n st).starters.countP pr ≤ st.starters.countP pr + n := by
  intro n
  induction n with
  | zero => intro st; exact Nat.le_refl _
  | succ m ih =>
    intro st
    show (iterN f m (f st)).starters.countP pr ≤ _
    have h1 := ih (f st)
    have h2 : (f st).starters.countP pr ≤ st.starters.countP pr + 1 := by
      rcases hshape st with he | ⟨p, he⟩
      · rw [he]; omega
      · rw [he, List.countP_append]
        have : List.countP pr [(p, some tag)] ≤ 1 := by
          simp [List.countP_cons]
          split <;> omega
        omega
    omega

/-- Iterating a pass preserves the tag discipline of the starters. -/
theorem iterN_tagsOK (f : FlexSt → FlexSt) (tag : String)
    (hshape : ∀ st, (f st).starters = st.starters ∨
      ∃ p, (f st).starters = st.starters ++ [(p, some tag)])
    (htag : some tag ∈ flexTags) :
    ∀ (n : Nat) (st : FlexSt), tagsOK st → tagsOK (iterN f n st) := by
  refine fun n st h => iterN_pres f tagsOK ?_ n st h
  intro s hs x hx
  rcases hshape s with he | ⟨p, he⟩
  · rw [he] at hx; exact hs x hx
  · rw [he] at hx
    rcases List.mem_append.1 hx with h1 | h2
    · exact hs x h1
    · right
      rw [List.mem_singleton.1 h2]
      exact htag

theorem sortByRank_perm (l : List WPlayer) : (sortByRank l).Perm l :=
  List.perm_insertionSort _ l

theorem sortByRank_sorted (l : List WPlayer) : sortedR (sortByRank l) :=
  List.sorted_insertionSort _ l

/-- The initial flexible-pass state satisfies the full invariant when the
input was rank-sorted. -/
theorem flexInit_inv1 (rs : Req) (players : List WPlayer)
    (hsorted : sortedR players) : inv1 (flexInit rs players) := by
  have hview : ∀ posns : List String,
      restrictInv posns
        (sortByRank ((fixedPass rs players (fun _ => 0)).2.filter
          (fun p => decide (p.position ∈ posns))))
        (fixedPass rs players (fun _ => 0)).2 := by
    intro posns q
    rw [(sortByRank_perm _).count_eq q, count_filter_eq]
    by_cases hq : q.position ∈ posns
    · rw [if_pos (by simpa using hq), if_pos hq]
    · rw [if_neg (by simpa using hq), if_neg hq]
  exact ⟨hview offensivePositions, sortByRank_sorted _,
    hview rwtePositions, sortByRank_sorted _,
    hview rwPositions, sortByRank_sorted _,
    fun x hx q hq hpos => fixedPass_best rs players _ hsorted x hx q hq hpos⟩

/-- Running the flexible passes from an invariant state keeps the final
best-rank invariant and conserves the starters-plus-bench multiset. -/
theorem flexRun_master (rs : Req) (st : FlexSt) (h1 : inv1 st) :
    bestInv (flexRun rs st) ∧ (content (flexRun rs st)).Perm (content st) := by
  have hA := iterN_pres superFlexStep
    (fun s => inv1 s ∧ (content s).Perm (content st))
    (fun s hs => ⟨(superFlexStep_pres s hs.1).1,
      ((superFlexStep_pres s hs.1).2).trans hs.2⟩)
    (rget rs "SUPER_FLEX") st ⟨h1, List.Perm.refl _⟩
  have hB := iterN_pres (wrrbteStep "FLEX")
    (fun s => inv2 s ∧ (content s).Perm (content st))
    (fun s hs => ⟨(wrrbteStep_pres "FLEX" s hs.1).1,
      ((wrrbteStep_pres "FLEX" s hs.1).2).trans hs.2⟩)
    (rget rs "FLEX") _ ⟨hA.1.2.2, hA.2⟩
  have hC := iterN_pres (wrrbteStep "WRRBTE_FLEX")
    (fun s => inv2 s ∧ (content s).Perm (content st))
    (fun s hs => ⟨(wrrbteStep_pres "WRRBTE_FLEX" s hs.1).1,
      ((wrrbteStep_pres "WRRBTE_FLEX" s hs.1).2).trans hs.2⟩)
    (rget rs "WRRBTE_FLEX") _ hB
  have hD := iterN_pres wrrbStep
    (fun s => inv3 s ∧ (content s).Perm (content st))
    (fun s hs => ⟨(wrrbStep_pres s hs.1).1,
      ((wrrbStep_pres s hs.1).2).trans hs.2⟩)
    (rget rs "WRRB_FLEX") _ ⟨hC.1.2.2, hC.2⟩
  exact ⟨hD.1.2.2, hD.2⟩

/-- Running the flexible passes keeps the tag discipline. -/
theorem flexRun_tagsOK (rs : Req) (st : FlexSt) (h : tagsOK st) :
    tagsOK (flexRun rs st) := by
  refine iterN_tagsOK wrrbStep "WRRB_FLEX" wrrbStep_shape (by decide) _ _ ?_
  refine iterN_tagsOK (wrrbteStep "WRRBTE_FLEX") "WRRBTE_FLEX"
    (wrrbteStep_shape "WRRBTE_FLEX") (by decide) _ _ ?_
  refine iterN_tagsOK (wrrbteStep "FLEX") "FLEX"
    (wrrbteStep_shape "FLEX") (by decide) _ _ ?_
  exact iterN_tagsOK superFlexStep "SUPER_FLEX" superFlexStep_shape
    (by decide) _ _ h

/-- The flexible passes never change the count of starters keyed at a
fixed offensive position. -/
theorem flexRun_countP_offensive (rs : Req) (st : FlexSt) (pos : String)
    (hpos : pos ∈ offensivePositions) :
    (flexRun rs st).starters.countP (fun x => decide (skey x = pos)) =
      st.starters.countP (fun x => decide (skey x = pos)) := by
  have hkill : ∀ t : String, t ∉ offensivePositions →
      ∀ p : WPlayer, (fun x => decide (skey x = pos)) (p, some t) = false := by
    intro t ht p
    show decide (skey (p, some t) = pos) = false
    have hsk : skey (p, some t) = t := rfl
    rw [hsk]
    exact decide_eq_false (fun h => ht (by rw [h]; exact hpos))
  unfold flexRun
  rw [iterN_countP_pres wrrbStep "WRRB_FLEX" wrrbStep_shape _
      (hkill "WRRB_FLEX" (by decide)),
    iterN_countP_pres (wrrbteStep "WRRBTE_FLEX") "WRRBTE_FLEX"
      (wrrbteStep_shape "WRRBTE_FLEX") _ (hkill "WRRBTE_FLEX" (by decide)),
    iterN_countP_pres (wrrbteStep "FLEX") "FLEX"
      (wrrbteStep_shape "FLEX") _ (hkill "FLEX" (by decide)),
    iterN_countP_pres superFlexStep "SUPER_FLEX" superFlexStep_shape _
      (hkill "SUPER_FLEX" (by decide))]

/-- Each flexible slot's pass adds at most its requirement count of
starters keyed at that slot, and the other passes none. -/
theorem flexRun_countP_tags (rs : Req) (st : FlexSt) :
    ((flexRun rs st).starters.countP
        (fun x => decide (skey x = "SUPER_FLEX")) ≤
      st.starters.countP (fun x => decide (skey x = "SUPER_FLEX")) +
        rget rs "SUPER_FLEX") ∧
    ((flexRun rs st).starters.countP (fun x => decide (skey x = "FLEX")) ≤
      st.starters.countP (fun x => decide (skey x = "FLEX")) +
        rget rs "FLEX") ∧
    ((flexRun rs st).starters.countP
        (fun x => decide (skey x = "WRRBTE_FLEX")) ≤
      st.starters.countP (fun x => decide (skey x = "WRRBTE_FLEX")) +
        rget rs "WRRBTE_FLEX") ∧
    ((flexRun rs st).starters.countP
        (fun x => decide (skey x = "WRRB_FLEX")) ≤
      st.starters.countP (fun x => decide (skey x = "WRRB_FLEX")) +
        rget rs "WRRB_FLEX") := by
  unfold flexRun
  refine ⟨?_, ?_, ?_, ?_⟩
  · rw [iterN_countP_pres wrrbStep "WRRB_FLEX" wrrbStep_shape _ (fun p => rfl),
      iterN_countP_pres (wrrbteStep "WRRBTE_FLEX") "WRRBTE_FLEX"
        (wrrbteStep_shape "WRRBTE_FLEX") _ (fun p => rfl),
      iterN_countP_pres (wrrbteStep "FLEX") "FLEX"
        (wrrbteStep_shape "FLEX") _ (fun p => rfl)]
    exact iterN_countP_le superFlexStep "SUPER_FLEX" superFlexStep_shape _ _ _
  · rw [iterN_countP_pres wrrbStep "WRRB_FLEX" wrrbStep_shape _ (fun p => rfl),
      iterN_countP_pres (wrrbteStep "WRRBTE_FLEX") "WRRBTE_FLEX"
        (wrrbteStep_shape "WRRBTE_FLEX") _ (fun p => rfl)]
    have h1 := iterN_countP_le (wrrbteStep "FLEX") "FLEX"
      (wrrbteStep_shape "FLEX") (fun x => decide (skey x = "FLEX"))
      (rget rs "FLEX")
      (iterN superFlexStep (rget rs "SUPER_FLEX") st)
    have h2 := iterN_countP_pres superFlexStep "SUPER_FLEX"
      superFlexStep_shape (fun x => decide (skey x = "FLEX"))
      (fun p => rfl) (rget rs "SUPER_FLEX") st
    omega
  · have h1 := iterN_countP_le (wrrbteStep "WRRBTE_FLEX") "WRRBTE_FLEX"
      (wrrbteStep_shape "WRRBTE_FLEX")
      (fun x => decide (skey x = "WRRBTE_FLEX")) (rget rs "WRRBTE_FLEX")
      (iterN (wrrbteStep "FLEX") (rget rs "FLEX")
        (iterN superFlexStep (rget rs "SUPER_FLEX") st))
    have h2 := iterN_countP_pres (wrrbteStep "FLEX") "FLEX"
      (wrrbteStep_shape "FLEX") (fun x => decide (skey x = "WRRBTE_FLEX"))
      (fun p => rfl) (rget rs "FLEX")
      (iterN superFlexStep (rget rs "SUPER_FLEX") st)
    have h3 := iterN_countP_pres superFlexStep "SUPER_FLEX"
      superFlexStep_shape (fun x => decide (skey x = "WRRBTE_FLEX"))
      (fun p => rfl) (rget rs "SUPER_FLEX") st
    have h4 := iterN_countP_pres wrrbStep "WRRB_FLEX" wrrbStep_shape
      (fun x => decide (skey x = "WRRBTE_FLEX")) (fun p => rfl)
      (rget rs "WRRB_FLEX")
      (iterN (wrrbteStep "WRRBTE_FLEX") (rget rs "WRRBTE_FLEX")
        (iterN (wrrbteStep "FLEX") (rget rs "FLEX")
          (iterN superFlexStep (rget rs "SUPER_FLEX") st)))
    omega
  · have h1 := iterN_countP_le wrrbStep "WRRB_FLEX" wrrbStep_shape
      (fun x => decide (skey x = "WRRB_FLEX")) (rget rs "WRRB_FLEX")
      (iterN (wrrbteStep "WRRBTE_FLEX") (rget rs "WRRBTE_FLEX")
        (iterN (wrrbteStep "FLEX") (rget rs "FLEX")
          (iterN superFlexStep (rget rs "SUPER_FLEX") st)))
    have h2 := iterN_countP_pres (wrrbteStep "WRRBTE_FLEX") "WRRBTE_FLEX"
      (wrrbteStep_shape "WRRBTE_FLEX") (fun x => decide (skey x = "WRRB_FLEX"))
      (fun p => rfl) (rget rs "WRRBTE_FLEX")
      (iterN (wrrbteStep "FLEX") (rget rs "FLEX")
        (iterN superFlexStep (rget rs "SUPER_FLEX") st))
    have h3 := iterN_countP_pres (wrrbteStep "FLEX") "FLEX"
      (wrrbteStep_shape "FLEX") (fun x => decide (skey x = "WRRB_FLEX"))
      (fun p => rfl) (rget rs "FLEX")
      (iterN superFlexStep (rget rs "SUPER_FLEX") st)
    have h4 := iterN_countP_pres superFlexStep "SUPER_FLEX"
      superFlexStep_shape (fun x => decide (skey x = "WRRB_FLEX"))
      (fun p => rfl) (rget rs "SUPER_FLEX") st
    omega

/-- The master properties of `allocate` over the rank-sorted resolved
players: it splits the input (starters plus bench is a permutation of the
input), starters beat same-position bench players, every starter is
untagged or tagged by one of the four flexible passes, all starter and
bench positions are offensive, and the starters keyed at any slot stay
within that slot's requirement. -/
theorem allocate_main (rs : Req) (uop : List WPlayer)
    (hoff : ∀ p ∈ uop, p.position ∈ offensivePositions) :
    ((allocate rs (sortByRank uop)).1.map Prod.fst ++
        (allocate rs (sortByRank uop)).2).Perm uop ∧
    (∀ x ∈ (allocate rs (sortByRank uop)).1,
        ∀ q ∈ (allocate rs (sortByRank uop)).2,
          x.1.position = q.position → x.1.rank ≤ q.rank) ∧
    (∀ x ∈ (allocate rs (sortByRank uop)).1, x.2 = none ∨ x.2 ∈ flexTags) ∧
    (∀ x ∈ (allocate rs (sortByRank uop)).1,
        x.1.position ∈ offensivePositions) ∧
    (∀ q ∈ (allocate rs (sortByRank uop)).2,
        q.position ∈ offensivePositions) ∧
    (∀ pos : String,
        (allocate rs (sortByRank uop)).1.countP
          (fun x => decide (skey x = pos)) ≤
        if pos ∈ orderSlots then rget rs pos else 0) := by
  have hsorted := sortByRank_sorted uop
  have hinv := flexInit_inv1 rs (sortByRank uop) hsorted
  obtain ⟨hbest4, hcontent⟩ := flexRun_master rs _ hinv
  have hcontent0 : (content (flexInit rs (sortByRank uop))).Perm uop := by
    show ((fixedPass rs (sortByRank uop) (fun _ => 0)).1.map Prod.fst ++
      (fixedPass rs (sortByRank uop) (fun _ => 0)).2).Perm uop
    exact (fixedPass_perm rs _ _).trans (sortByRank_perm uop)
  have hperm : ((allocate rs (sortByRank uop)).1.map Prod.fst ++
      (allocate rs (sortByRank uop)).2).Perm uop := hcontent.trans hcontent0
  have htags0 : tagsOK (flexInit rs (sortByRank uop)) :=
    fun x hx => Or.inl (fixedPass_tags rs _ _ x hx)
  have htags := flexRun_tagsOK rs _ htags0
  have hxpos : ∀ x ∈ (allocate rs (sortByRank uop)).1,
      x.1.position ∈ offensivePositions := by
    intro x hx
    have hm : x.1 ∈ (allocate rs (sortByRank uop)).1.map Prod.fst ++
        (allocate rs (sortByRank uop)).2 :=
      List.mem_append_left _ (List.mem_map_of_mem _ hx)
    exact hoff _ (hperm.mem_iff.1 hm)
  have hqpos : ∀ q ∈ (allocate rs (sortByRank uop)).2,
      q.position ∈ offensivePositions := by
    intro q hq
    exact hoff _ (hperm.mem_iff.1 (List.mem_append_right _ hq))
  have hxpos0 : ∀ x ∈ (flexInit rs (sortByRank uop)).starters,
      x.1.position ∈ offensivePositions := by
    intro x hx
    have hm : x.1 ∈ content (flexInit rs (sortByRank uop)) :=
      List.mem_append_left _ (List.mem_map_of_mem _ hx)
    exact hoff _ (hcontent0.mem_iff.1 hm)
  have hskey0 : ∀ x ∈ (flexInit rs (sortByRank uop)).starters,
      skey x = x.1.position := by
    intro x hx
    have hnone := fixedPass_tags rs _ _ x hx
    show x.2.getD x.1.position = x.1.position
    rw [hnone]
    rfl
  refine ⟨hperm, fun x hx q hq hp => hbest4 x hx q hq hp, htags, hxpos, hqpos, ?_⟩
  intro pos
  by_cases hmem : pos ∈ orderSlots
  · rw [if_pos hmem]
    have hoffcase : pos ∈ offensivePositions →
        (allocate rs (sortByRank uop)).1.countP
          (fun x => decide (skey x = pos)) ≤ rget rs pos := by
      intro hop
      have heq := flexRun_countP_offensive rs (flexInit rs (sortByRank uop))
        pos hop
      have heq2 : (flexInit rs (sortByRank uop)).starters.countP
          (fun x => decide (skey x = pos)) =
          (flexInit rs (sortByRank uop)).starters.countP
            (fun x => decide (x.1.position = pos)) := by
        refine List.countP_congr ?_
        intro y hy
        rw [decide_eq_true_eq, decide_eq_true_eq, hskey0 y hy]
      have hfix := fixedPass_countP rs (sortByRank uop) (fun _ => 0) pos
        (Nat.zero_le _)
      have hfi : (flexInit rs (sortByRank uop)).starters =
          (fixedPass rs (sortByRank uop) (fun _ => 0)).1 := rfl
      show (flexRun rs (flexInit rs (sortByRank uop))).starters.countP
        (fun x => decide (skey x = pos)) ≤ rget rs pos
      rw [heq, heq2, hfi]
      omega
    have htagcase : ∀ t : String, pos = t → t ∉ offensivePositions →
        ((flexRun rs (flexInit rs (sortByRank uop))).starters.countP
            (fun x => decide (skey x = t)) ≤
          (flexInit rs (sortByRank uop)).starters.countP
            (fun x => decide (skey x = t)) + rget rs t) →
        (allocate rs (sortByRank uop)).1.countP
          (fun x => decide (skey x = pos)) ≤ rget rs pos := by
      intro t hpt htoff hbound
      subst hpt
      have hzero : (flexInit rs (sortByRank uop)).starters.countP
          (fun x => decide (skey x = pos)) = 0 := by
        rw [List.countP_eq_zero]
        intro y hy
        rw [decide_eq_true_eq, hskey0 y hy]
        intro hcon
        exact htoff (by rw [← hcon]; exact hxpos0 y hy)
      show (flexRun rs (flexInit rs (sortByRank uop))).starters.countP
        (fun x => decide (skey x = pos)) ≤ rget rs pos
      omega
    have h8 : pos = "QB" ∨ pos = "RB" ∨ pos = "WR" ∨ pos = "TE" ∨
        pos = "SUPER_FLEX" ∨ pos = "FLEX" ∨ pos = "WRRBTE_FLEX" ∨
        pos = "WRRB_FLEX" := by
      simpa [orderSlots] using hmem
    obtain ⟨hb1, hb2, hb3, hb4⟩ := flexRun_countP_tags rs (flexInit rs (sortByRank uop))
    rcases h8 with h | h | h | h | h | h | h | h
    · exact hoffcase (by rw [h]; decide)
    · exact hoffcase (by rw [h]; decide)
    · exact hoffcase (by rw [h]; decide)
    · exact hoffcase (by rw [h]; decide)
    · exact htagcase "SUPER_FLEX" h (by decide) hb1
    · exact htagcase "FLEX" h (by decide) hb2
    · exact htagcase "WRRBTE_FLEX" h (by decide) hb3
    · exact htagcase "WRRB_FLEX" h (by decide) hb4
  · rw [if_neg hmem, Nat.le_zero, List.countP_eq_zero]
    intro x hx
    rw [decide_eq_true_eq]
    intro hcon
    have hsk : skey x ∈ orderSlots := by
      rcases htags x hx with hnone | htag
      · have : skey x = x.1.position := by
          show x.2.getD x.1.position = x.1.position
          rw [hnone]; rfl
        rw [this]
        have hin := hxpos x hx
        rcases x with ⟨xp, xt⟩
        revert hin
        intro hin
        rcases (by simpa [offensivePositions] using hin :
            xp.position = "QB" ∨ xp.position = "RB" ∨ xp.position = "WR" ∨
            xp.position = "TE") with h | h | h | h <;> rw [h] <;> decide
      · rcases x with ⟨xp, xt⟩
        rcases (by simpa [flexTags] using htag :
            xt = some "SUPER_FLEX" ∨ xt = some "FLEX" ∨
            xt = some "WRRBTE_FLEX" ∨ xt = some "WRRB_FLEX") with
          h | h | h | h
        · subst h; exact (by decide : ("SUPER_FLEX" : String) ∈ orderSlots)
        · subst h; exact (by decide : ("FLEX" : String) ∈ orderSlots)
        · subst h; exact (by decide : ("WRRBTE_FLEX" : String) ∈ orderSlots)
        · subst h; exact (by decide : ("WRRB_FLEX" : String) ∈ orderSlots)
    exact hmem (by rw [← hcon]; exact hsk)

theorem sortByRankTagged_perm (l : List (WPlayer × Option String)) :
    (sortByRankTagged l).Perm l :=
  List.perm_insertionSort _ l

/-- Membership in a slot's starter group. -/
theorem groupAt_mem (starters : List (WPlayer × Option String)) (pos : String)
    (x : WPlayer × Option String) :
    x ∈ groupAt starters pos ↔ x ∈ starters ∧ skey x = pos := by
  unfold groupAt
  rw [(sortByRankTagged_perm _).mem_iff, List.mem_filter]
  simp

/-- Everything the reorder step emits was a starter. -/
theorem buildSorted_subset (starters : List (WPlayer × Option String)) :
    ∀ (order : List String) (cnt : String → Nat) (x : WPlayer × Option String),
      x ∈ buildSorted starters order cnt → x ∈ starters := by
  intro order
  induction order with
  | nil => intro cnt x hx; cases hx
  | cons pos rest ih =>
    intro cnt x hx
    unfold buildSorted at hx
    rcases hg : (groupAt starters pos).get? (cnt pos) with _ | s
    · rw [hg] at hx
      exact ih _ x hx
    · rw [hg] at hx
      rcases List.mem_cons.1 hx with he | ht
      · subst he
        rw [List.get?_eq_getElem?] at hg
        exact ((groupAt_mem starters pos x).1 (List.getElem?_mem hg)).1
      · exact ih _ x ht

/-- The reorder step emits at most one starter per declared slot. -/
theorem buildSorted_length (starters : List (WPlayer × Option String)) :
    ∀ (order : List String) (cnt : String → Nat),
      (buildSorted starters order cnt).length ≤ order.length := by
  intro order
  induction order with
  | nil => intro cnt; exact Nat.le_refl _
  | cons pos rest ih =>
    intro cnt
    unfold buildSorted
    rcases hg : (groupAt starters pos).get? (cnt pos) with _ | s
    · exact Nat.le_succ_of_le (ih cnt)
    · simpa using Nat.succ_le_succ (ih _)

/-- The multiset the reorder step emits: for each starter value, all its
remaining occurrences in its slot's group, provided the declared slots can
hold the group. -/
theorem buildSorted_count (starters : List (WPlayer × Option String)) :
    ∀ (order : List String) (cnt : String → Nat),
      (∀ pos, (groupAt starters pos).length ≤ cnt pos + order.count pos) →
      ∀ s : WPlayer × Option String,
        (buildSorted starters order cnt).count s =
          if skey s ∈ order then
            ((groupAt starters (skey s)).drop (cnt (skey s))).count s
          else 0 := by
  intro order
  induction order with
  | nil =>
    intro cnt hcap s
    simp [buildSorted]
  | cons pos rest ih =>
    intro cnt hcap s
    unfold buildSorted
    rcases hg : (groupAt starters pos).get? (cnt pos) with _ | x
    · rw [List.get?_eq_getElem?, List.getElem?_eq_none_iff] at hg
      have hdrop : (groupAt starters pos).drop (cnt pos) = [] :=
        List.drop_eq_nil_of_le hg
      have hcap' : ∀ q, (groupAt starters q).length ≤ cnt q + rest.count q := by
        intro q
        have := hcap q
        by_cases hq : q = pos
        · subst hq; omega
        · rwa [List.count_cons_of_ne (fun h => hq h) ] at this
      rw [ih cnt hcap' s]
      by_cases hsp : skey s = pos
      · rw [hsp, hdrop]
        simp
      · by_cases hsr : skey s ∈ rest
        · rw [if_pos hsr, if_pos (List.mem_cons_of_mem _ hsr)]
        · rw [if_neg hsr, if_neg (by
            intro hc
            rcases List.mem_cons.1 hc with h1 | h2
            · exact hsp h1
            · exact hsr h2)]
    · rw [List.get?_eq_getElem?, List.getElem?_eq_some_iff] at hg
      obtain ⟨hlt, hx⟩ := hg
      have hxg : x ∈ groupAt starters pos := hx ▸ List.getElem_mem hlt
      have hxkey : skey x = pos := ((groupAt_mem starters pos x).1 hxg).2
      have hdrop : (groupAt starters pos).drop (cnt pos) =
          x :: (groupAt starters pos).drop (cnt pos + 1) := by
        rw [List.drop_eq_getElem_cons hlt, hx]
      have hcap' : ∀ q, (groupAt starters q).length ≤
          (if q = pos then cnt q + 1 else cnt q) + rest.count q := by
        intro q
        have hq2 := hcap q
        by_cases hq : q = pos
        · subst hq
          rw [if_pos rfl]
          rw [List.count_cons_self] at hq2
          omega
        · rw [if_neg hq]
          rw [List.count_cons_of_ne (fun h => hq h)] at hq2
          exact hq2
      have hih := ih (fun q => if q = pos then cnt q + 1 else cnt q) hcap' s
      beta_reduce at hih
      rw [List.count_cons, hih]
      by_cases hsp : skey s = pos
      · rw [hsp]
        rw [if_pos (List.mem_cons_self _ _)]
        rw [if_pos rfl, hdrop, List.count_cons]
        by_cases hpr : pos ∈ rest
        · rw [if_pos hpr]
        · rw [if_neg hpr]
          have hlen := hcap pos
          rw [List.count_cons_self, List.count_eq_zero.2 hpr] at hlen
          have hnil : (groupAt starters pos).drop (cnt pos + 1) = [] :=
            List.drop_eq_nil_of_le (by omega)
          rw [hnil]
          simp
      · have hxns : ¬ (x == s) = true := by
          intro hc
          exact hsp ((eq_of_beq hc) ▸ hxkey)
        rw [if_neg hxns]
        by_cases hsr : skey s ∈ rest
        · rw [if_pos hsr, if_pos (List.mem_cons_of_mem _ hsr),
            if_neg (fun h : skey s = pos => hsp h)]
          omega
        · rw [if_neg hsr, if_neg (by
            intro hc
            rcases List.mem_cons.1 hc with h1 | h2
            · exact hsp h1
            · exact hsr h2)]

theorem rget_cons (k : String) (v : Nat) (rest : Req) (q : String) :
    rget ((k, v) :: rest) q = if k = q then v else rget rest q := by
  unfold rget
  by_cases hk : k = q
  · rw [List.find?_cons_of_pos _ (by simpa using hk), if_pos hk]
  · rw [List.find?_cons_of_neg _ (by simpa using hk), if_neg hk]

theorem count_le_flatMap {α β : Type} [DecidableEq β] (f : α → List β)
    (x : β) (e : α) :
    ∀ l : List α, e ∈ l → (f e).count x ≤ (l.flatMap f).count x := by
  intro l
  induction l with
  | nil => intro h; cases h
  | cons a rest ih =>
    intro h
    rw [List.flatMap_cons, List.count_append]
    rcases List.mem_cons.1 h with he | ht
    · subst he; omega
    · have := ih ht; omega

/-- A recognized slot occurs in `position_order` at least its requirement
count many times. -/
theorem posOrder_count_ge (rs : Req) (pos : String) :
    (if pos ∈ orderSlots then rget rs pos else 0) ≤
      (positionOrder rs).count pos := by
  by_cases hmem : pos ∈ orderSlots
  · rw [if_pos hmem]
    rcases hfind : rs.find? (fun kv => kv.1 = pos) with _ | e
    · have : rget rs pos = 0 := by unfold rget; rw [hfind]
      omega
    · have hre : rget rs pos = e.2 := by unfold rget; rw [hfind]
      have he1 : e.1 = pos := by simpa using List.find?_some hfind
      have hemem : e ∈ rs := List.mem_of_find?_eq_some hfind
      have hle := count_le_flatMap
        (fun kv => if 0 < kv.2 ∧ kv.1 ∈ orderSlots
          then List.replicate kv.2 kv.1 else []) pos e rs hemem
      by_cases hz : 0 < e.2
      · beta_reduce at hle
        rw [if_pos ⟨hz, by rw [he1]; exact hmem⟩, he1] at hle
        rw [List.count_replicate] at hle
        simp only [beq_self_eq_true, if_true] at hle
        unfold positionOrder
        omega
      · omega
  · rw [if_neg hmem]
    exact Nat.zero_le _

/-- A recognized slot with positive requirement occurs in
`position_order`. -/
theorem posOrder_mem (rs : Req) (pos : String) (hmem : pos ∈ orderSlots)
    (hpos : 0 < rget rs pos) : pos ∈ positionOrder rs := by
  have := posOrder_count_ge rs pos
  rw [if_pos hmem] at this
  exact List.count_pos_iff.1 (by omega)

/-- Iterating a fill pass only appends tagged starters, and only when the
pass runs at least once. -/
theorem iterN_suffix (f : FlexSt → FlexSt) (tag : String)
    (hshape : ∀ st, (f st).starters = st.starters ∨
      ∃ p, (f st).starters = st.starters ++ [(p, some tag)]) :
    ∀ (n : Nat) (st : FlexSt), ∃ suf,
      (iterN f n st).starters = st.starters ++ suf ∧
      ∀ y ∈ suf, y.2 = some tag ∧ 0 < n := by
  intro n
  induction n with
  | zero =>
    intro st
    exact ⟨[], by simp [iterN], fun y hy => absurd hy (List.not_mem_nil y)⟩
  | succ m ih =>
    intro st
    obtain ⟨suf1, hsuf1, hmem1⟩ := ih (f st)
    rcases hshape st with he | ⟨p, he⟩
    · refine ⟨suf1, ?_, fun y hy => ⟨(hmem1 y hy).1, Nat.succ_pos m⟩⟩
      show (iterN f m (f st)).starters = st.starters ++ suf1
      rw [hsuf1, he]
    · refine ⟨(p, some tag) :: suf1, ?_, ?_⟩
      · show (iterN f m (f st)).starters = st.starters ++ (p, some tag) :: suf1
        rw [hsuf1, he, List.append_assoc]
        rfl
      · intro y hy
        rcases List.mem_cons.1 hy with h1 | h2
        · exact ⟨by rw [h1], Nat.succ_pos m⟩
        · exact ⟨(hmem1 y h2).1, Nat.succ_pos m⟩

/-- Every starter the flexible passes add is tagged by a pass whose slot
requirement is positive. -/
theorem flexRun_suffix (rs : Req) (st : FlexSt) :
    ∃ suf, (flexRun rs st).starters = st.starters ++ suf ∧
      ∀ y ∈ suf,
        (y.2 = some "SUPER_FLEX" ∧ 0 < rget rs "SUPER_FLEX") ∨
        (y.2 = some "FLEX" ∧ 0 < rget rs "FLEX") ∨
        (y.2 = some "WRRBTE_FLEX" ∧ 0 < rget rs "WRRBTE_FLEX") ∨
        (y.2 = some "WRRB_FLEX" ∧ 0 < rget rs "WRRB_FLEX") := by
  obtain ⟨sA, hA, hmA⟩ := iterN_suffix superFlexStep "SUPER_FLEX"
    superFlexStep_shape (rget rs "SUPER_FLEX") st
  obtain ⟨sB, hB, hmB⟩ := iterN_suffix (wrrbteStep "FLEX") "FLEX"
    (wrrbteStep_shape "FLEX") (rget rs "FLEX")
    (iterN superFlexStep (rget rs "SUPER_FLEX") st)
  obtain ⟨sC, hC, hmC⟩ := iterN_suffix (wrrbteStep "WRRBTE_FLEX") "WRRBTE_FLEX"
    (wrrbteStep_shape "WRRBTE_FLEX") (rget rs "WRRBTE_FLEX")
    (iterN (wrrbteStep "FLEX") (rget rs "FLEX")
      (iterN superFlexStep (rget rs "SUPER_FLEX") st))
  obtain ⟨sD, hD, hmD⟩ := iterN_suffix wrrbStep "WRRB_FLEX"
    wrrbStep_shape (rget rs "WRRB_FLEX")
    (iterN (wrrbteStep "WRRBTE_FLEX") (rget rs "WRRBTE_FLEX")
      (iterN (wrrbteStep "FLEX") (rget rs "FLEX")
        (iterN superFlexStep (rget rs "SUPER_FLEX") st)))
  refine ⟨sA ++ sB ++ sC ++ sD, ?_, ?_⟩
  · show (iterN wrrbStep (rget rs "WRRB_FLEX") _).starters = _
    rw [hD, hC, hB, hA]
    simp [List.append_assoc]
  · intro y hy
    simp only [List.mem_append] at hy
    rcases hy with ((h1 | h2) | h3) | h4
    · exact Or.inl ⟨(hmA y h1).1, (hmA y h1).2⟩
    · exact Or.inr (Or.inl ⟨(hmB y h2).1, (hmB y h2).2⟩)
    · exact Or.inr (Or.inr (Or.inl ⟨(hmC y h3).1, (hmC y h3).2⟩))
    · exact Or.inr (Or.inr (Or.inr ⟨(hmD y h4).1, (hmD y h4).2⟩))

theorem pickBest_positions (needed : Nat) (roster comb : List DKEntry)
    (pos : String) : ∀ e ∈ pickBest needed roster comb pos, e.position = pos := by
  intro e he
  unfold pickBest at he
  by_cases hn : needed = 0
  · rw [if_pos hn] at he; cases he
  · rw [if_neg hn] at he
    rcases comb with _ | ⟨bw, ct⟩ <;> rcases roster with _ | ⟨br, rt⟩ <;>
      simp only at he
    · cases he
    · rw [List.mem_singleton.1 he]; rfl
    · rw [List.mem_singleton.1 he]; rfl
    · by_cases hlt : bw.rank < br.rank
      · rw [if_pos hlt] at he
        rw [List.mem_singleton.1 he]; rfl
      · rw [if_neg hlt] at he
        rw [List.mem_singleton.1 he]; rfl

theorem pickBest_length (needed : Nat) (roster comb : List DKEntry)
    (pos : String) :
    (pickBest needed roster comb pos).length ≤ if 0 < needed then 1 else 0 := by
  unfold pickBest
  by_cases hn : needed = 0
  · rw [if_pos hn]
    simp [hn]
  · rw [if_neg hn, if_pos (Nat.pos_of_ne_zero hn)]
    rcases comb with _ | ⟨bw, ct⟩ <;> rcases roster with _ | ⟨br, rt⟩ <;>
      simp only [List.length_nil, List.length_cons]
    · omega
    · omega
    · omega
    · by_cases hlt : bw.rank < br.rank
      · rw [if_pos hlt]; simp
      · rw [if_neg hlt]; simp

theorem posOrder_cons (k : String) (v : Nat) (rest : Req) :
    positionOrder ((k, v) :: rest) =
      (if 0 < v ∧ k ∈ orderSlots then List.replicate v k else []) ++
        positionOrder rest := by
  unfold positionOrder
  rw [List.flatMap_cons]

/-- The declared slots, plus one K and one DEF when required, never exceed
the total of all requirement counts. -/
theorem req_sum_bound (rs : Req) :
    (positionOrder rs).length + (if 0 < rget rs "K" then 1 else 0) +
      (if 0 < rget rs "DEF" then 1 else 0) ≤ (rs.map Prod.snd).sum := by
  induction rs with
  | nil => simp [positionOrder, rget]
  | cons kv rest ih =>
    rcases kv with ⟨k, v⟩
    rw [posOrder_cons, List.length_append, List.map_cons, List.sum_cons,
      rget_cons, rget_cons]
    by_cases hk : k = "K"
    · subst hk
      rw [if_pos rfl, if_neg (by decide : ¬("K" = "DEF")),
        if_neg (show ¬(0 < v ∧ "K" ∈ orderSlots) from
          fun h => absurd h.2 (by decide))]
      have hb : (if 0 < v then 1 else 0) ≤ v := by
        by_cases hv : 0 < v
        · rw [if_pos hv]; omega
        · rw [if_neg hv]; omega
      simp only [List.length_nil]
      omega
    · rw [if_neg hk]
      by_cases hd : k = "DEF"
      · subst hd
        rw [if_pos rfl,
          if_neg (show ¬(0 < v ∧ "DEF" ∈ orderSlots) from
            fun h => absurd h.2 (by decide))]
        have hb : (if 0 < v then 1 else 0) ≤ v := by
          by_cases hv : 0 < v
          · rw [if_pos hv]; omega
          · rw [if_neg hv]; omega
        simp only [List.length_nil]
        omega
      · rw [if_neg hd]
        have hb : (if 0 < v ∧ k ∈ orderSlots then List.replicate v k
            else []).length ≤ v := by
          by_cases hc : 0 < v ∧ k ∈ orderSlots
          · rw [if_pos hc, List.length_replicate]
          · rw [if_neg hc]
            exact Nat.zero_le _
        omega

/-- The two lawful `BEq` views of tagged players count alike. -/
theorem countPS_bridge (s : WPlayer × Option String)
    (l : List (WPlayer × Option String)) :
    l.count s = @List.count _ instBEqOfDecidableEq s l := by
  have h1 : l.count s = l.countP (fun x => x == s) := rfl
  have h2 : @List.count _ instBEqOfDecidableEq s l =
      l.countP (fun x => decide (x = s)) := rfl
  rw [h1, h2]
  refine List.countP_congr ?_
  intro x _
  simp

theorem weeklyAnalysis_eq (rs : Req) (uop : List WPlayer)
    (rD wD rK wK : List DKEntry) :
    weeklyAnalysis rs uop rD wD rK wK =
      { starters := (buildSorted (allocate rs (sortByRank uop)).1
            (positionOrder rs) (fun _ => 0)).map offToEntry ++
          pickBest (rget rs "K") (sortDK rK)
            ((sortDK (sortDK rK ++ sortDK wK)).take 5) "K" ++
          pickBest (rget rs "DEF") (sortDK rD)
            ((sortDK (sortDK rD ++ sortDK wD)).take 5) "DEF",
        bench := (allocate rs (sortByRank uop)).2 } := rfl

/-- The reorder step loses no starter: its output is a permutation of the
allocation's starters. -/
theorem buildSorted_perm_starters (rs : Req) (uop : List WPlayer)
    (hoff : ∀ p ∈ uop, p.position ∈ offensivePositions) :
    (buildSorted (allocate rs (sortByRank uop)).1 (positionOrder rs)
      (fun _ => 0)).Perm (allocate rs (sortByRank uop)).1 := by
  obtain ⟨hperm, hbest, htags, hxpos, hqpos, hcnt⟩ := allocate_main rs uop hoff
  have hskey : ∀ x ∈ (allocate rs (sortByRank uop)).1,
      skey x ∈ positionOrder rs := by
    intro x hx
    obtain ⟨suf, hsuf, hmem⟩ := flexRun_suffix rs (flexInit rs (sortByRank uop))
    have hx2 : x ∈ (flexInit rs (sortByRank uop)).starters ++ suf := by
      rw [← hsuf]; exact hx
    rcases List.mem_append.1 hx2 with h0 | hS
    · have hnone := fixedPass_tags rs (sortByRank uop) (fun _ => 0) x h0
      have hok := fixedPass_assigned_ok rs (sortByRank uop) (fun _ => 0) x h0
      have hsk : skey x = x.1.position := by
        show x.2.getD x.1.position = x.1.position
        rw [hnone]; rfl
      rw [hsk]
      refine posOrder_mem rs _ ?_ hok.2
      have hsub : ∀ p ∈ slotNames, p ∈ orderSlots := by decide
      exact hsub _ hok.1
    · rcases hmem x hS with ⟨ht, hq⟩ | ⟨ht, hq⟩ | ⟨ht, hq⟩ | ⟨ht, hq⟩
      · have hsk : skey x = "SUPER_FLEX" := by
          show x.2.getD x.1.position = _
          rw [ht]; rfl
        rw [hsk]
        exact posOrder_mem rs _ (by decide) hq
      · have hsk : skey x = "FLEX" := by
          show x.2.getD x.1.position = _
          rw [ht]; rfl
        rw [hsk]
        exact posOrder_mem rs _ (by decide) hq
      · have hsk : skey x = "WRRBTE_FLEX" := by
          show x.2.getD x.1.position = _
          rw [ht]; rfl
        rw [hsk]
        exact posOrder_mem rs _ (by decide) hq
      · have hsk : skey x = "WRRB_FLEX" := by
          show x.2.getD x.1.position = _
          rw [ht]; rfl
        rw [hsk]
        exact posOrder_mem rs _ (by decide) hq
  have hcap : ∀ pos, (groupAt (allocate rs (sortByRank uop)).1 pos).length ≤
      (fun _ => 0) pos + (positionOrder rs).count pos := by
    intro pos
    have hlen : (groupAt (allocate rs (sortByRank uop)).1 pos).length =
        (allocate rs (sortByRank uop)).1.countP
          (fun s => decide (skey s = pos)) := by
      unfold groupAt
      rw [(sortByRankTagged_perm _).length_eq, ← List.countP_eq_length_filter]
    rw [hlen]
    have h1 := hcnt pos
    have h2 := posOrder_count_ge rs pos
    omega
  rw [List.perm_iff_count]
  intro s
  rw [← countPS_bridge s (buildSorted (allocate rs (sortByRank uop)).1
      (positionOrder rs) (fun _ => 0)),
    ← countPS_bridge s (allocate rs (sortByRank uop)).1]
  rw [buildSorted_count _ _ _ hcap s]
  have hgc : ((groupAt (allocate rs (sortByRank uop)).1 (skey s)).drop
      ((fun _ => 0) (skey s))).count s =
      (allocate rs (sortByRank uop)).1.count s := by
    show ((groupAt (allocate rs (sortByRank uop)).1 (skey s)).drop 0).count s = _
    rw [List.drop_zero]
    unfold groupAt
    show List.countP _ _ = List.countP _ _
    rw [List.Perm.countP_eq _ (sortByRankTagged_perm _), List.countP_filter]
    refine List.countP_congr ?_
    intro x _
    constructor
    · intro h
      rw [Bool.and_eq_true] at h
      exact h.1
    · intro h
      have hx : x = s := by simpa using h
      subst hx
      simp [h]
  by_cases hin : skey s ∈ positionOrder rs
  · rw [if_pos hin, hgc]
  · rw [if_neg hin]
    have hns : s ∉ (allocate rs (sortByRank uop)).1 :=
      fun hc => hin (hskey s hc)
    rw [List.count_eq_zero.2 hns]

/-- C1: every resolved on-roster offensive player appears in exactly one
of the returned starters and bench lists — their union is a permutation of
the resolved input and each input player occurs exactly once across the
two — and the number of starters is at most the sum of all slot
requirement counts. -/
theorem c1_partition_and_size :
    ∀ (rs : Req) (uop : List WPlayer) (rD wD rK wK : List DKEntry),
      (∀ p ∈ uop, p.position ∈ offensivePositions) →
      (uop.map WPlayer.rank).Nodup →
      ((((weeklyAnalysis rs uop rD wD rK wK).starters.filter
            (fun e => decide (e.position ∈ offensivePositions))).map entryToW ++
          (weeklyAnalysis rs uop rD wD rK wK).bench).Perm uop) ∧
      (∀ p ∈ uop,
        (((weeklyAnalysis rs uop rD wD rK wK).starters.filter
            (fun e => decide (e.position ∈ offensivePositions))).map
              entryToW).count p +
          (weeklyAnalysis rs uop rD wD rK wK).bench.count p = 1) ∧
      (weeklyAnalysis rs uop rD wD rK wK).starters.length ≤
        (rs.map Prod.snd).sum := by
  intro rs uop rD wD rK wK hoff hrk
  obtain ⟨hperm, hbest, htags, hxpos, hqpos, hcnt⟩ := allocate_main rs uop hoff
  have hgs := buildSorted_perm_starters rs uop hoff
  rw [weeklyAnalysis_eq]
  have hf1 : ((buildSorted (allocate rs (sortByRank uop)).1 (positionOrder rs)
      (fun _ => 0)).map offToEntry).filter
        (fun e => decide (e.position ∈ offensivePositions)) =
      (buildSorted (allocate rs (sortByRank uop)).1 (positionOrder rs)
        (fun _ => 0)).map offToEntry := by
    rw [List.filter_eq_self]
    intro e he
    rcases List.mem_map.1 he with ⟨x, hx, hex⟩
    have hxa := buildSorted_subset _ _ _ x hx
    have := hxpos x hxa
    rw [← hex]
    simpa using this
  have hf2 : (pickBest (rget rs "K") (sortDK rK)
      ((sortDK (sortDK rK ++ sortDK wK)).take 5) "K").filter
        (fun e => decide (e.position ∈ offensivePositions)) = [] := by
    rw [List.filter_eq_nil_iff]
    intro e he
    rw [pickBest_positions _ _ _ _ e he]
    decide
  have hf3 : (pickBest (rget rs "DEF") (sortDK rD)
      ((sortDK (sortDK rD ++ sortDK wD)).take 5) "DEF").filter
        (fun e => decide (e.position ∈ offensivePositions)) = [] := by
    rw [List.filter_eq_nil_iff]
    intro e he
    rw [pickBest_positions _ _ _ _ e he]
    decide
  have hmapW : ((buildSorted (allocate rs (sortByRank uop)).1
      (positionOrder rs) (fun _ => 0)).map offToEntry).map entryToW =
      (buildSorted (allocate rs (sortByRank uop)).1 (positionOrder rs)
        (fun _ => 0)).map Prod.fst := by
    rw [List.map_map]
    rfl
  have hflt : (((buildSorted (allocate rs (sortByRank uop)).1
        (positionOrder rs) (fun _ => 0)).map offToEntry ++
      pickBest (rget rs "K") (sortDK rK)
        ((sortDK (sortDK rK ++ sortDK wK)).take 5) "K" ++
      pickBest (rget rs "DEF") (sortDK rD)
        ((sortDK (sortDK rD ++ sortDK wD)).take 5) "DEF").filter
          (fun e => decide (e.position ∈ offensivePositions))).map entryToW =
      (buildSorted (allocate rs (sortByRank uop)).1 (positionOrder rs)
        (fun _ => 0)).map Prod.fst := by
    rw [List.filter_append, List.filter_append, hf1, hf2, hf3,
      List.append_nil, List.append_nil, hmapW]
  have hperm2 : (((buildSorted (allocate rs (sortByRank uop)).1
        (positionOrder rs) (fun _ => 0)).map offToEntry ++
      pickBest (rget rs "K") (sortDK rK)
        ((sortDK (sortDK rK ++ sortDK wK)).take 5) "K" ++
      pickBest (rget rs "DEF") (sortDK rD)
        ((sortDK (sortDK rD ++ sortDK wD)).take 5) "DEF").filter
          (fun e => decide (e.position ∈ offensivePositions))).map entryToW ++
      (allocate rs (sortByRank uop)).2 |>.Perm uop := by
    rw [hflt]
    exact (List.Perm.append (hgs.map Prod.fst)
      (List.Perm.refl _)).trans hperm
  refine ⟨hperm2, ?_, ?_⟩
  · intro p hp
    have hn : uop.Nodup := List.Nodup.of_map WPlayer.rank hrk
    have h1 := hperm2.count_eq p
    rw [List.count_append] at h1
    rw [h1]
    exact List.count_eq_one_of_mem hn hp
  · show ((buildSorted (allocate rs (sortByRank uop)).1 (positionOrder rs)
        (fun _ => 0)).map offToEntry ++
      pickBest (rget rs "K") (sortDK rK)
        ((sortDK (sortDK rK ++ sortDK wK)).take 5) "K" ++
      pickBest (rget rs "DEF") (sortDK rD)
        ((sortDK (sortDK rD ++ sortDK wD)).take 5) "DEF").length ≤ _
    rw [List.length_append, List.length_append, List.length_map]
    have h1 := buildSorted_length (allocate rs (sortByRank uop)).1
      (positionOrder rs) (fun _ => 0)
    have h2 := pickBest_length (rget rs "K") (sortDK rK)
      ((sortDK (sortDK rK ++ sortDK wK)).take 5) "K"
    have h3 := pickBest_length (rget rs "DEF") (sortDK rD)
      ((sortDK (sortDK rD ++ sortDK wD)).take 5) "DEF"
    have h4 := req_sum_bound rs
    omega

/-- C2: every returned starter's rank is at most the rank of every
returned bench player sharing its base position. -/
theorem c2_starters_beat_bench :
    ∀ (rs : Req) (uop : List WPlayer) (rD wD rK wK : List DKEntry),
      (∀ p ∈ uop, p.position ∈ offensivePositions) →
      ∀ e ∈ (weeklyAnalysis rs uop rD wD rK wK).starters,
        ∀ b ∈ (weeklyAnalysis rs uop rD wD rK wK).bench,
          e.position = b.position → e.rank ≤ b.rank := by
  intro rs uop rD wD rK wK hoff e he b hb hpos
  obtain ⟨hperm, hbest, htags, hxpos, hqpos, hcnt⟩ := allocate_main rs uop hoff
  rw [weeklyAnalysis_eq] at he hb
  simp only at hb
  rcases List.mem_append.1 he with he1 | heD
  · rcases List.mem_append.1 he1 with heO | heK
    · rcases List.mem_map.1 heO with ⟨x, hx, hex⟩
      have hxa := buildSorted_subset _ _ _ x hx
      have hr : e.rank = x.1.rank := by rw [← hex]; rfl
      have hppp : e.position = x.1.position := by rw [← hex]; rfl
      rw [hr]
      exact hbest x hxa b hb (by rw [← hppp]; exact hpos)
    · exfalso
      have hKe := pickBest_positions _ _ _ _ e heK
      have hboff := hqpos b hb
      rw [hKe] at hpos
      rw [← hpos] at hboff
      exact absurd hboff (by decide)
  · exfalso
    have hDe := pickBest_positions _ _ _ _ e heD
    have hboff := hqpos b hb
    rw [hDe] at hpos
    rw [← hpos] at hboff
    exact absurd hboff (by decide)

theorem sortDK_perm (l : List DKEntry) : (sortDK l).Perm l :=
  List.perm_insertionSort _ l

theorem sortDK_sorted (l : List DKEntry) :
    (sortDK l).Pairwise (fun a b => a.rank ≤ b.rank) :=
  List.sorted_insertionSort _ l

/-- The DEF/K starter selection picks exactly the best-ranked entry of the
combined roster-plus-waiver pool, flagging it as a waiver-wire pick
precisely when it is not on the roster. -/
theorem pickBest_spec (needed : Nat) (roster waiver : List DKEntry)
    (pos : String) (hpos : 0 < needed) (hne : roster ++ waiver ≠ [])
    (hnd : ((roster ++ waiver).map DKEntry.rank).Nodup)
    (hro : ∀ e ∈ roster, e.is_on_roster = true)
    (hwv : ∀ e ∈ waiver, e.is_on_roster = false) :
    ∃ best, best ∈ roster ++ waiver ∧
      (∀ e ∈ roster ++ waiver, best.rank ≤ e.rank) ∧
      pickBest needed (sortDK roster)
        ((sortDK (sortDK roster ++ sortDK waiver)).take 5) pos =
        [dkToEntry best pos (!best.is_on_roster)] := by
  have hcp : (sortDK (sortDK roster ++ sortDK waiver)).Perm (roster ++ waiver) :=
    (sortDK_perm _).trans (List.Perm.append (sortDK_perm _) (sortDK_perm _))
  rcases hcomb : sortDK (sortDK roster ++ sortDK waiver) with _ | ⟨c, ct⟩
  · rw [hcomb] at hcp
    exact absurd (List.Perm.nil_eq hcp).symm hne
  · rw [hcomb] at hcp
    have hcmem : c ∈ roster ++ waiver := hcp.mem_iff.1 (List.mem_cons_self c ct)
    have hsort := sortDK_sorted (sortDK roster ++ sortDK waiver)
    rw [hcomb] at hsort
    have hmin : ∀ e ∈ roster ++ waiver, c.rank ≤ e.rank := by
      intro e he
      rcases List.mem_cons.1 (hcp.mem_iff.2 he) with h1 | h2
      · rw [h1]
      · exact (List.pairwise_cons.1 hsort).1 e h2
    have htake : (c :: ct).take 5 = c :: ct.take 4 := rfl
    unfold pickBest
    rw [if_neg (Nat.pos_iff_ne_zero.1 hpos), htake]
    rcases hsr : sortDK roster with _ | ⟨br, rt⟩
    · have hr0 : roster = [] := by
        have := sortDK_perm roster
        rw [hsr] at this
        exact (List.Perm.nil_eq this).symm
      have hcw : c ∈ waiver := by
        rw [hr0] at hcmem
        simpa using hcmem
      refine ⟨c, hcmem, hmin, ?_⟩
      show [dkToEntry c pos true] = [dkToEntry c pos (!c.is_on_roster)]
      rw [hwv c hcw]
      rfl
    · have hbr_mem : br ∈ roster := by
        have := sortDK_perm roster
        rw [hsr] at this
        exact this.mem_iff.1 (List.mem_cons_self br rt)
      have hbr_min : ∀ e ∈ roster, br.rank ≤ e.rank := by
        intro e he
        have hperm := sortDK_perm roster
        rw [hsr] at hperm
        have hsorted := sortDK_sorted roster
        rw [hsr] at hsorted
        rcases List.mem_cons.1 (hperm.mem_iff.2 he) with h1 | h2
        · rw [h1]
        · exact (List.pairwise_cons.1 hsorted).1 e h2
      by_cases hlt : c.rank < br.rank
      · have hcw : c ∈ waiver := by
          rcases List.mem_append.1 hcmem with h1 | h2
          · exact absurd (hbr_min c h1) (by omega)
          · exact h2
        refine ⟨c, hcmem, hmin, ?_⟩
        show (if c.rank < br.rank then [dkToEntry c pos true]
          else [dkToEntry br pos false]) = [dkToEntry c pos (!c.is_on_roster)]
        rw [if_pos hlt, hwv c hcw]
        rfl
      · have hcbr : c = br := by
          have h1 : c.rank ≤ br.rank :=
            hmin br (List.mem_append_left _ hbr_mem)
          have h2 : c.rank = br.rank := by omega
          exact List.inj_on_of_nodup_map hnd hcmem
            (List.mem_append_left _ hbr_mem) h2
        refine ⟨br, List.mem_append_left _ hbr_mem, ?_, ?_⟩
        · intro e he
          rw [← hcbr]
          exact hmin e he
        · show (if c.rank < br.rank then [dkToEntry c pos true]
            else [dkToEntry br pos false]) = [dkToEntry br pos (!br.is_on_roster)]
          rw [if_neg hlt, hro br hbr_mem]
          rfl

/-- C7: exactly one DEF and one K enter the returned starters, each the
single best-ranked entry of the combined roster-plus-free-agent pool for
its position, with a free-agent choice flagged as a waiver-wire pick
rather than disqualified. -/
theorem c7_def_k_selection :
    ∀ (rs : Req) (uop : List WPlayer) (rD wD rK wK : List DKEntry),
      (∀ p ∈ uop, p.position ∈ offensivePositions) →
      0 < rget rs "K" → 0 < rget rs "DEF" →
      rK ++ wK ≠ [] → rD ++ wD ≠ [] →
      ((rK ++ wK).map DKEntry.rank).Nodup →
      ((rD ++ wD).map DKEntry.rank).Nodup →
      (∀ e ∈ rK, e.is_on_roster = true) →
      (∀ e ∈ wK, e.is_on_roster = false) →
      (∀ e ∈ rD, e.is_on_roster = true) →
      (∀ e ∈ wD, e.is_on_roster = false) →
      (∃ bk, bk ∈ rK ++ wK ∧ (∀ e ∈ rK ++ wK, bk.rank ≤ e.rank) ∧
        (weeklyAnalysis rs uop rD wD rK wK).starters.filter
          (fun e => decide (e.position = "K")) =
          [dkToEntry bk "K" (!bk.is_on_roster)]) ∧
      (∃ bd, bd ∈ rD ++ wD ∧ (∀ e ∈ rD ++ wD, bd.rank ≤ e.rank) ∧
        (weeklyAnalysis rs uop rD wD rK wK).starters.filter
          (fun e => decide (e.position = "DEF")) =
          [dkToEntry bd "DEF" (!bd.is_on_roster)]) := by
  intro rs uop rD wD rK wK hoff hk hd hkne hdne hknd hdnd hkro hkwv hdro hdwv
  obtain ⟨hperm, hbest, htags, hxpos, hqpos, hcnt⟩ := allocate_main rs uop hoff
  obtain ⟨bk, hbkm, hbkmin, hbke⟩ :=
    pickBest_spec (rget rs "K") rK wK "K" hk hkne hknd hkro hkwv
  obtain ⟨bd, hbdm, hbdmin, hbde⟩ :=
    pickBest_spec (rget rs "DEF") rD wD "DEF" hd hdne hdnd hdro hdwv
  rw [weeklyAnalysis_eq]
  have hoffK : ((buildSorted (allocate rs (sortByRank uop)).1
      (positionOrder rs) (fun _ => 0)).map offToEntry).filter
        (fun e => decide (e.position = "K")) = [] := by
    rw [List.filter_eq_nil_iff]
    intro e he
    rcases List.mem_map.1 he with ⟨x, hx, hex⟩
    have := hxpos x (buildSorted_subset _ _ _ x hx)
    rw [← hex]
    simp only [decide_eq_true_eq]
    intro hcon
    have : ("K" : String) ∈ offensivePositions := by
      rw [← hcon]
      exact this
    exact absurd this (by decide)
  have hoffD : ((buildSorted (allocate rs (sortByRank uop)).1
      (positionOrder rs) (fun _ => 0)).map offToEntry).filter
        (fun e => decide (e.position = "DEF")) = [] := by
    rw [List.filter_eq_nil_iff]
    intro e he
    rcases List.mem_map.1 he with ⟨x, hx, hex⟩
    have := hxpos x (buildSorted_subset _ _ _ x hx)
    rw [← hex]
    simp only [decide_eq_true_eq]
    intro hcon
    have : ("DEF" : String) ∈ offensivePositions := by
      rw [← hcon]
      exact this
    exact absurd this (by decide)
  have hKK : (pickBest (rget rs "K") (sortDK rK)
      ((sortDK (sortDK rK ++ sortDK wK)).take 5) "K").filter
        (fun e => decide (e.position = "K")) =
      pickBest (rget rs "K") (sortDK rK)
        ((sortDK (sortDK rK ++ sortDK wK)).take 5) "K" := by
    rw [List.filter_eq_self]
    intro e he
    rw [pickBest_positions _ _ _ _ e he]
    decide
  have hDK : (pickBest (rget rs "DEF") (sortDK rD)
      ((sortDK (sortDK rD ++ sortDK wD)).take 5) "DEF").filter
        (fun e => decide (e.position = "K")) = [] := by
    rw [List.filter_eq_nil_iff]
    intro e he
    rw [pickBest_positions _ _ _ _ e he]
    decide
  have hKD : (pickBest (rget rs "K") (sortDK rK)
      ((sortDK (sortDK rK ++ sortDK wK)).take 5) "K").filter
        (fun e => decide (e.position = "DEF")) = [] := by
    rw [List.filter_eq_nil_iff]
    intro e he
    rw [pickBest_positions _ _ _ _ e he]
    decide
  have hDD : (pickBest (rget rs "DEF") (sortDK rD)
      ((sortDK (sortDK rD ++ sortDK wD)).take 5) "DEF").filter
        (fun e => decide (e.position = "DEF")) =
      pickBest (rget rs "DEF") (sortDK rD)
        ((sortDK (sortDK rD ++ sortDK wD)).take 5) "DEF" := by
    rw [List.filter_eq_self]
    intro e he
    rw [pickBest_positions _ _ _ _ e he]
    decide
  constructor
  · refine ⟨bk, hbkm, hbkmin, ?_⟩
    show ((buildSorted (allocate rs (sortByRank uop)).1 (positionOrder rs)
        (fun _ => 0)).map offToEntry ++ _ ++ _).filter _ = _
    rw [List.filter_append, List.filter_append, hoffK, hKK, hDK,
      List.nil_append, List.append_nil]
    exact hbke
  · refine ⟨bd, hbdm, hbdmin, ?_⟩
    show ((buildSorted (allocate rs (sortByRank uop)).1 (positionOrder rs)
        (fun _ => 0)).map offToEntry ++ _ ++ _).filter _ = _
    rw [List.filter_append, List.filter_append, hoffD, hKD, hDD,
      List.nil_append, List.nil_append]
    exact hbde

theorem c1_witness :
    (∀ p ∈ [mkW "a" "QB" 1], p.position ∈ offensivePositions) ∧
    ([mkW "a" "QB" 1].map WPlayer.rank).Nodup ∧
    (weeklyAnalysis [("QB", 1)] [mkW "a" "QB" 1] [] [] [] []).starters.length ≤
      ([(("QB" : String), 1)].map Prod.snd).sum :=
  ⟨by decide, by decide,
    (c1_partition_and_size [("QB", 1)] [mkW "a" "QB" 1] [] [] [] []
      (by decide) (by decide)).2.2⟩

theorem c2_witness :
    (offToEntry (mkW "a" "QB" 1, none)).rank ≤ (mkW "b" "QB" 2).rank :=
  c2_starters_beat_bench [("QB", 1)] [mkW "a" "QB" 1, mkW "b" "QB" 2]
    [] [] [] [] (by decide) (offToEntry (mkW "a" "QB" 1, none)) (by decide)
    (mkW "b" "QB" 2) (by decide) (by decide)

theorem c7_witness :
    (∃ bk, bk ∈ ([] : List DKEntry) ++ [c7wK] ∧
      (∀ e ∈ ([] : List DKEntry) ++ [c7wK], bk.rank ≤ e.rank) ∧
      (weeklyAnalysis c7wReq [] [] [c7wD] [] [c7wK]).starters.filter
        (fun e => decide (e.position = "K")) =
        [dkToEntry bk "K" (!bk.is_on_roster)]) ∧
    (∃ bd, bd ∈ ([] : List DKEntry) ++ [c7wD] ∧
      (∀ e ∈ ([] : List DKEntry) ++ [c7wD], bd.rank ≤ e.rank) ∧
      (weeklyAnalysis c7wReq [] [] [c7wD] [] [c7wK]).starters.filter
        (fun e => decide (e.position = "DEF")) =
        [dkToEntry bd "DEF" (!bd.is_on_roster)]) :=
  c7_def_k_selection c7wReq [] [] [c7wD] [] [c7wK] (by decide) (by decide)
    (by decide) (by decide) (by decide) (by decide) (by decide) (by decide)
    (by decide) (by decide) (by decide)
